import Mathlib

/-!
Verification of the sputnik differential-testing harness generator.

This file gives a shallow embedding, in Lean 4, of the core pure logic of
the repository (signature model `sputnik/language.py`, symbol renamer
`sputnik/rename.py`, toolchain driver `sputnik/compiler.py`, harness
synthesizer `sputnik/crafter.py`, call-wrapper generator `prebuild.py`),
and proves or refutes the specification claims about them.

Strings are modelled as `List Char`.  Regex-based parsing routines are
embedded by functions that mirror the backtracking behaviour of the
concrete Python regexes used by the source (greedy groups realised by
searching split positions from the right, alternation realised by ordered
trial).  External processes (compiler invocations) are modelled by their
observable results (exit code and captured stderr).
-/

namespace Sputnik

/-- Characters the Python regex class `\s` matches on ASCII text. -/
def pyIsWs (c : Char) : Bool :=
  c = ' ' || c = '\t' || c = '\n' || c = '\x0d' || c = '\x0b' || c = '\x0c'

/-- Split a list at the first occurrence of a character satisfying `p`:
`breakAtP p l = some (a, b)` iff `l = a ++ c :: b` with `p c` true and no
character of `a` satisfying `p`.  Mirrors a greedy `[^c]*` regex group
followed by the literal `c`. -/
def breakAtP (p : Char → Bool) : List Char → Option (List Char × List Char)
  | [] => none
  | c :: l =>
    if p c then some ([], l)
    else match breakAtP p l with
      | none => none
      | some (a, b) => some (c :: a, b)

/-- Decide whether `pat` occurs as a contiguous substring of `l`. -/
def containsSub (pat : List Char) : List Char → Bool
  | [] => pat.isPrefixOf []
  | c :: l => pat.isPrefixOf (c :: l) || containsSub pat l

/-- Split on every non-overlapping occurrence of a separator, scanning left
to right; mirrors Python `str.split(sep)` (the separator is passed as a
head character plus rest, so it is non-empty by construction).  The fuel
argument makes the recursion structural — a non-empty separator consumes at
least one character per step, so any fuel at least the list length gives
the fuel-independent result. -/
def splitOnSepAux (s0 : Char) (sr : List Char) : Nat → List Char → List (List Char)
  | _, [] => [[]]
  | 0, c :: l => [c :: l]
  | fuel + 1, c :: l =>
    if (s0 :: sr).isPrefixOf (c :: l) then
      [] :: splitOnSepAux s0 sr fuel ((c :: l).drop (s0 :: sr).length)
    else match splitOnSepAux s0 sr fuel l with
      | [] => [[c]]
      | a :: r => (c :: a) :: r

/-- Split on a separator given as a plain list (which must be non-empty to
match Python's `str.split`; an empty separator yields a single piece). -/
def splitOnSep : List Char → List Char → List (List Char)
  | [], l => [l]
  | s0 :: sr, l => splitOnSepAux s0 sr l.length l

/-- Interleave a separator between list elements; mirrors Python
`sep.join(strings)`. -/
def joinSep (sep : List Char) : List (List Char) → List Char
  | [] => []
  | [a] => a
  | a :: b :: r => a ++ sep ++ joinSep sep (b :: r)

/-- First value associated to a key in an association list. -/
def alookup (k : List Char) : List (List Char × List Char) → Option (List Char)
  | [] => none
  | (k', v) :: r => if k = k' then some v else alookup k r

/-! ## Toolchain driver (`sputnik/compiler.py`) -/

/-- Observable result of a finished child process: its exit status and the
bytes it wrote to stderr (decoded). -/
structure ProcResult where
  returncode : Int
  stderr : List Char
deriving DecidableEq, Repr

/-- The two exception classes declared by `sputnik/compiler.py`. -/
inductive ToolError where
  | compileError (msg : List Char)
  | linkerError (msg : List Char)
deriving DecidableEq, Repr

/-- Whether a toolchain result is a `LinkerError`. -/
def isLinkerError : Except ToolError (Option (List Char)) → Bool
  | .error (.linkerError _) => true
  | _ => false

/-- Embedding of `run_command`: on a non-zero exit status it raises
`CompileError(stderr)`; on success it returns the stderr text as a warning
when non-empty, and no warning otherwise. -/
def run_command (p : ProcResult) : Except ToolError (Option (List Char)) :=
  if p.returncode ≠ 0 then .error (.compileError p.stderr)
  else if p.stderr ≠ [] then .ok (some p.stderr) else .ok none

/-- Embedding of `link`: it builds the linker command line and delegates the
outcome entirely to `run_command`. -/
def link (p : ProcResult) : Except ToolError (Option (List Char)) :=
  run_command p

/-- Outcome of one `compile_file` call inside a batch, as observed by
`compile_collection`: either success with an optional warning, or a raised
per-file exception. -/
inductive CompileOutcome where
  | ok (warning : Option (List Char))
  | failed (msg : List Char)
deriving DecidableEq, Repr

/-- The `stats` dictionary of `compile_collection`. -/
structure BatchStats where
  skipped : Nat
  compiled : Nat
  failed : Nat
  warning : Nat
deriving DecidableEq, Repr

/-- One source-to-destination pair of the batch together with the outcome
its `compile_file` call produces. -/
structure BatchItem where
  src : List Char
  dest : List Char
  outcome : CompileOutcome
deriving DecidableEq, Repr

/-- One iteration of the `compile_collection` loop body. -/
def compileCollectionStep (acc : List (List Char) × BatchStats) (it : BatchItem) :
    List (List Char) × BatchStats :=
  match it.outcome with
  | .failed _ => (acc.1, { acc.2 with failed := acc.2.failed + 1 })
  | .ok w =>
    let s1 := match w with
      | some _ => { acc.2 with warning := acc.2.warning + 1 }
      | none => acc.2
    (acc.1 ++ [it.dest], { s1 with compiled := s1.compiled + 1 })

/-- Embedding of `compile_collection`: fold the loop body over the pairs of
the source map in iteration order, starting from empty output list and
zeroed stats.  A `failed` outcome (the `except Exception` branch) only
bumps the `failed` counter and continues. -/
def compile_collection (items : List BatchItem) : List (List Char) × BatchStats :=
  items.foldl compileCollectionStep ([], ⟨0, 0, 0, 0⟩)

/-- Whether a batch item's compilation succeeded. -/
def outcomeOk : CompileOutcome → Bool
  | .ok _ => true
  | .failed _ => false

/-! ## Signature model (`sputnik/language.py`) -/

/-- Embedding of `language.Variable`. -/
structure Variable where
  type : List Char
  name : List Char
  ptr_depth : Nat
  array_size : Int
  value : Option (List Char)
deriving DecidableEq, Repr

/-- Embedding of `Variable.__eq__` (the `value` field is not compared). -/
def varEq (a b : Variable) : Bool :=
  a.name = b.name && a.type = b.type && a.ptr_depth = b.ptr_depth &&
    a.array_size = b.array_size

/-- Embedding of `language.Signature` (and of `Function`, whose optional
body plays no role in equality or rendering of declarations). -/
structure Signature where
  name : List Char
  args : List Variable
  ret : Variable
deriving DecidableEq, Repr

/-- Embedding of `Signature.__eq__`: name, return value, and the argument
lists compared pairwise by `zip` (which silently truncates to the shorter
list). -/
def sigEq (a b : Signature) : Bool :=
  a.name = b.name && varEq a.ret b.ret &&
    ((a.args.zip b.args).all fun p => varEq p.1 p.2)

/-- Embedding of `Variable.type_str`. -/
def typeStr (v : Variable) : List Char :=
  v.type ++ (if v.ptr_depth ≠ 0 then ' ' :: List.replicate v.ptr_depth '*' else [])

/-- Embedding of `Variable.__str__`. -/
def varStr (v : Variable) : List Char :=
  if v.ptr_depth ≠ 0 then typeStr v ++ v.name
  else typeStr v ++ ' ' :: v.name

/-- Embedding of `Signature.fork`: rename the (copied) return value to
`ret_<name>` and copy the arguments. -/
def fork (s : Signature) (n : List Char) : Signature :=
  ⟨n, s.args, { s.ret with name := "ret_".toList ++ n }⟩

/-- Embedding of `Function.declaration`. -/
def declaration (f : Signature) : List Char :=
  let args := joinSep ", ".toList (f.args.map varStr)
  if f.ret.ptr_depth ≠ 0 then
    typeStr f.ret ++ f.name ++ '(' :: args ++ ");".toList
  else
    typeStr f.ret ++ ' ' :: f.name ++ '(' :: args ++ ");".toList

/-- Embedding of `Function.definition`: the declaration header without the
trailing `;`, an opening brace line, each body line prefixed with a tab,
and a closing brace line, joined by newlines. -/
def definitionRender (f : Signature) (body : List Char) : List Char :=
  let args := joinSep ", ".toList (f.args.map varStr)
  let header := if f.ret.ptr_depth ≠ 0 then
      typeStr f.ret ++ f.name ++ '(' :: args ++ [')']
    else
      typeStr f.ret ++ ' ' :: f.name ++ '(' :: args ++ [')']
  joinSep ['\n'] ([header, ['\x7b']] ++ (splitOnSep ['\n'] body).map ('\t' :: ·) ++ [['\x7d']])

/-! ### The declaration parser

`Signature.parse` applies the regex `(.*)\s([*]*)([^(]*)\(([^)]*)\);` with
`re.match` and `re.DOTALL`.  The greedy leading group is realised by trying
every split position for the `\s` from the right and keeping the first
(that is, longest-prefix) success; at a fixed position the remaining groups
are deterministic: a maximal run of `*`, a scan to the first `(`, a scan to
the first `)`, and a literal `;` (trailing text is ignored, as `re.match`
only anchors the start). -/

/-- The final literal `;` of the declaration regex: succeed iff the residue
starts with a semicolon. -/
def semiCheck (r3 : List Char) (out : List Char × Nat × List Char × List Char) :
    Option (List Char × Nat × List Char × List Char) :=
  match r3 with
  | c :: _ => if c = ';' then some out else none
  | [] => none

/-- Attempt the tail of the declaration regex with the `\s` at index `i`. -/
def fdTry (s : List Char) (i : Nat) :
    Option (List Char × Nat × List Char × List Char) :=
  match s.drop i with
  | [] => none
  | w :: r =>
    if pyIsWs w then
      (breakAtP (· == '(') (r.dropWhile (· == '*'))).bind fun g1 =>
        (breakAtP (· == ')') g1.2).bind fun g2 =>
          semiCheck g2.2 (s.take i, (r.takeWhile (· == '*')).length, g1.1, g2.1)
    else none

/-- Try the split positions for the greedy `(.*)\s` from longest prefix to
shortest; the first success is the regex match. -/
def fdSearch (s : List Char) : Nat → Option (List Char × Nat × List Char × List Char)
  | 0 => none
  | i + 1 =>
    match fdTry s i with
    | some g => some g
    | none => fdSearch s i

/-- Group extraction of the declaration regex on a whole line. -/
def funcDeclMatch (s : List Char) : Option (List Char × Nat × List Char × List Char) :=
  fdSearch s s.length

/-- Attempt the tail of the argument regex `(.*)\s([*]*)([^;]*)[;]?` with
the `\s` at index `i`.  This regex is compiled without `re.DOTALL`, so the
greedy `(.*)` cannot cross a newline: a split is valid only when the prefix
holds no `'\n'` (the `\s` itself may be the newline, and the later classes
`[*]` and `[^;]` do match newlines).  Once a valid split is found the tail
never fails. -/
def varTry (s : List Char) (i : Nat) : Option (List Char × Nat × List Char) :=
  match s.drop i with
  | [] => none
  | w :: r =>
    if pyIsWs w && !((s.take i).contains '\n') then
      let stars := r.takeWhile (· == '*')
      let r1 := r.dropWhile (· == '*')
      some (s.take i, stars.length, r1.takeWhile (· != ';'))
    else none

/-- Greedy split-position search for the argument regex, longest prefix
first; positions beyond the first newline are rejected by `varTry`, which
bounds the backtracking exactly as the newline bounds the source `(.*)`. -/
def varSearch (s : List Char) : Nat → Option (List Char × Nat × List Char)
  | 0 => none
  | i + 1 =>
    match varTry s i with
    | some g => some g
    | none => varSearch s i

/-- Group extraction of `Variable.parse`'s regex
`(?:const )?(.*)\s([*]*)([^;]*)[;]?`: the optional `const ` prefix is
consumed first and dropped again if the rest of the regex then fails. -/
def varMatch (s : List Char) : Option (List Char × Nat × List Char) :=
  if ("const ".toList).isPrefixOf s then
    match varSearch (s.drop 6) (s.length - 6) with
    | some g => some g
    | none => varSearch s s.length
  else varSearch s s.length

/-- Embedding of `Variable.parse`: a pointer argument receives the supplied
array size, a scalar argument `-1`. -/
def pyVarParse (s : List Char) (asize : Int) : Option Variable :=
  (varMatch s).map fun g => ⟨g.1, g.2.2, g.2.1, if g.2.1 ≠ 0 then asize else -1, none⟩

/-- Parse every element, failing as soon as one element fails (the loop in
`Signature.parse` raises out of the whole parse). -/
def mapOptionVar (f : List Char → Option Variable) : List (List Char) → Option (List Variable)
  | [] => some []
  | a :: r =>
    match f a with
    | none => none
    | some b =>
      match mapOptionVar f r with
      | none => none
      | some bs => some (b :: bs)

/-- Embedding of `Signature.parse` with explicit `default_array_size`: the
return value is an unnamed `Variable` whose pointer depth is the star
count, and the argument text is split on the literal `", "` with each piece
parsed by `Variable.parse` (a piece that fails to parse raises, making the
whole parse fail). -/
def pySigParse (s : List Char) (das : Int) : Option Signature :=
  match funcDeclMatch s with
  | none => none
  | some (ret, p, nm, args) =>
    let pieces := if args = [] then [] else splitOnSep (", ".toList) args
    match mapOptionVar (fun pc => pyVarParse pc das) pieces with
    | none => none
    | some avs => some ⟨nm, avs, ⟨ret, "unnamed".toList, p, -1, none⟩⟩

/-! ## Harness synthesizer (`sputnik/crafter.py`) -/

/-- Decimal rendering of a Python integer. -/
def intChars (i : Int) : List Char :=
  (toString i).toList

/-- Embedding of the assumption text built by
`TestHarness.define_assumptions` for a char-pointer argument. -/
def assumptionFor (array_width : Int) (v : Variable) : List Char :=
  if array_width ≠ 0 then
    v.name ++ '[' :: intChars (v.array_size - 1) ++ ("] == \x27\\0\x27".toList)
  else
    v.name ++ ("[0] == \x27\\0\x27".toList)

/-- The `arg.isptr and arg.type == 'char'` test of `define_assumptions`. -/
def isCharPtr (v : Variable) : Bool :=
  v.ptr_depth != 0 && v.type == ("char".toList)

/-- Embedding of `TestHarness.define_assumptions`: walk the argument cache
in order and add the default `'\0'` assumption for every char pointer. -/
def define_assumptions (array_width : Int) (cache : List Variable) : List (List Char) :=
  cache.foldl
    (fun acc v =>
      if isCharPtr v then acc ++ [assumptionFor array_width v]
      else acc)
    []

/-- Modelled from the spec: the default assumption the specification
promises for a char-pointer argument — `arg[array_size - 1] == '\0'` when
`array_width > 0` and `arg[0] == '\0'` when `array_width` is `0`. -/
def claimDefaultAssumption (array_width : Int) (v : Variable) : List Char :=
  if array_width > 0 then
    v.name ++ '[' :: intChars (v.array_size - 1) ++ ("] == \x27\\0\x27".toList)
  else
    v.name ++ ("[0] == \x27\\0\x27".toList)

/-- Embedding of `TestHarness.define_input_fuzzing`: returns the updated
fuzzing seed map together with the emitted input-reading lines, or the
exception raised for an unsupported type (a bare `Exception()`, whose
message is empty). -/
def define_input_fuzzing (tcs : List (List Char × List Char)) (v : Variable) :
    Except (List Char) (List (List Char × List Char) × List (List Char)) :=
  let argRef := if v.ptr_depth ≠ 0 then v.name else '&' :: v.name
  let emit := fun (fmt : List Char) (tc : List Char) =>
    Except.ok ((tcs.map fun p => (p.1, p.2 ++ tc)),
      [("scanf(\"".toList) ++ fmt ++ ("\", ".toList) ++ argRef ++ (");".toList)])
  if v.type == ("int".toList) then emit ("%d".toList) ("1234\n".toList)
  else if v.type == ("size_t".toList) then emit ("%zu".toList) ("1234\n".toList)
  else if v.type == ("char".toList) && v.ptr_depth != 0 then
    emit ('%' :: intChars (v.array_size - 1) ++ ['s'])
      (List.replicate v.array_size.toNat 'A' ++ ['\n'])
  else if v.type == ("char".toList) && v.ptr_depth == 0 then emit ("%c".toList) ("A\n".toList)
  else if v.type == ("long int".toList) then emit ("%ld".toList) ("1234\n".toList)
  else if v.type == ("long long int".toList) then emit ("%lld".toList) ("1234\n".toList)
  else if v.type == ("long".toList) then emit ("%l".toList) ("1234\n".toList)
  else if v.type == ("long long".toList) then emit ("%ll".toList) ("1234\n".toList)
  else if v.type == ("wint_t".toList) then
    Except.ok ((tcs.map fun p => (p.1, p.2 ++ ("AA\n".toList))),
      [("read(0, ".toList) ++ argRef ++ (", 4);".toList)])
  else Except.error []

/-- The set of types the specification lists as supported by the fuzzing
input generator (`char` covers both the scalar and the pointer case). -/
def claimSupportedType (v : Variable) : Bool :=
  v.type == ("int".toList) || v.type == ("size_t".toList) || v.type == ("long".toList) ||
  v.type == ("long int".toList) || v.type == ("long long".toList) ||
  v.type == ("long long int".toList) || v.type == ("char".toList) ||
  v.type == ("wint_t".toList)

/-! ### The clustering verifier

The C function emitted by `TestHarness.new_generate_verify_function` is
embedded as a state transformer: `mapping` is the `int mapping[N]` array,
`count` the `count_cluster` counter, and the two nested loops become folds
over `List.range n`.  `sputnik_abort` is called iff the final counter
exceeds one. -/

/-- The `UNALLOCATED` marker of the emitted verifier. -/
def UNALLOC : Int := -1

/-- The inner scan of the clustering loop: the first `j` that is distinct
from `i`, already clustered, and equivalent to `i` under `lib_eval`. -/
def innerScan (ev : Nat → Nat → Int) (n : Nat) (m : List Int) (i : Nat) : Option Nat :=
  (List.range n).find? fun j =>
    !(j == i || m.getD j UNALLOC == UNALLOC) && ev i j == 0

/-- One iteration of the outer clustering loop for library `i`. -/
def stepVerif (ev : Nat → Nat → Int) (n : Nat) (st : List Int × Nat) (i : Nat) :
    List Int × Nat :=
  if st.1.getD i UNALLOC ≠ UNALLOC then st
  else
    let m' := match innerScan ev n st.1 i with
      | some j => st.1.set i (st.1.getD j UNALLOC)
      | none => st.1
    if m'.getD i UNALLOC = UNALLOC then (m'.set i ((i : Int) + 1), st.2 + 1)
    else (m', st.2)

/-- The full clustering pass of the emitted `verifier()`. -/
def runVerifier (ev : Nat → Nat → Int) (n : Nat) : List Int × Nat :=
  (List.range n).foldl (stepVerif ev n) (List.replicate n UNALLOC, 0)

/-- The final `count_cluster` value. -/
def count_cluster (ev : Nat → Nat → Int) (n : Nat) : Nat :=
  (runVerifier ev n).2

/-- Whether the emitted verifier calls `sputnik_abort`. -/
def verifierAborts (ev : Nat → Nat → Int) (n : Nat) : Bool :=
  decide (count_cluster ev n > 1)

/-- Modelled from the spec: one step of reachability closure of the
`lib_eval` kernel, used to express "equivalence class" for a relation that
need not be transitive. -/
def relStep (n : Nat) (R : Nat → Nat → Bool) : Nat → Nat → Bool :=
  fun i j => R i j || (List.range n).any fun k => R i k && R k j

/-- Modelled from the spec: iterated closure steps starting from the
reflexive kernel of `lib_eval`. -/
def transCloseAux (ev : Nat → Nat → Int) (n : Nat) : Nat → Nat → Nat → Bool
  | 0 => fun i j => ev i j == 0 || i == j
  | k + 1 => relStep n (transCloseAux ev n k)

/-- Modelled from the spec: membership of two indices in the same
equivalence class under the reflexive-transitive-symmetric closure of the
`lib_eval` kernel (for a symmetric kernel, `n` closure steps saturate). -/
def transClose (ev : Nat → Nat → Int) (n : Nat) : Nat → Nat → Bool :=
  transCloseAux ev n n

/-! ## Symbol renamer (`sputnik/rename.py`) -/

/-- Whether one of the given literal alternatives matches at the start. -/
def startsWithAnyOf (pats : List (List Char)) (l : List Char) : Bool :=
  pats.any fun p => p.isPrefixOf l

/-- The `@<name> = <linkage>` branch of `detect_names`'s regex: a leading
`@`, a maximal non-whitespace run as the name, the literal ` = `, and a
negative lookahead for the excluded linkages. -/
def lineMatchVariable (line : List Char) : Option (List Char) :=
  match line with
  | '@' :: rest =>
    let nm := rest.takeWhile fun c => !(pyIsWs c)
    if nm = [] then none
    else match rest.drop nm.length with
      | ' ' :: '=' :: ' ' :: tail =>
        if startsWithAnyOf (["internal", "private", "appending", "external"].map String.toList) tail
        then none else some nm
      | _ => none
  | _ => none

/-- The `define … @<name>(` branch of `detect_names`'s regex: the literal
`define `, a negative lookahead for `internal`/`private`, a scan to the
first `@`, then either a quoted name (quotes kept in the capture) or a
maximal non-empty run excluding `(` and `"`, followed by a literal `(`. -/
def lineMatchDefine (line : List Char) : Option (List Char) :=
  if ("define ".toList).isPrefixOf line then
    let tail := line.drop 7
    if startsWithAnyOf (["internal", "private"].map String.toList) tail then none
    else
      let pre := tail.takeWhile (· != '@')
      match tail.drop pre.length with
      | '@' :: rest =>
        (match rest with
         | '"' :: r2 =>
           let q := r2.takeWhile (· != '"')
           (match r2.drop q.length with
            | '"' :: '(' :: _ => some ('"' :: q ++ ['"'])
            | _ => none)
         | _ =>
           let nm := rest.takeWhile fun c => !(c == '(') && !(c == '"')
           if nm = [] then none
           else match rest.drop nm.length with
             | '(' :: _ => some nm
             | _ => none)
      | _ => none
  else none

/-- Match of the full `catchall` regex on one line: the variable
alternative first, then the function-definition alternative. -/
def lineDetect (line : List Char) : Option (List Char) :=
  match lineMatchVariable line with
  | some nm => some nm
  | none => lineMatchDefine line

/-- Embedding of `detect_names`: collect `@name ↦ @sub(name)` over every
matching line, in file order. -/
def detect_names (lines : List (List Char)) (sub : List Char → List Char) :
    List (List Char × List Char) :=
  lines.foldl
    (fun acc line =>
      match lineDetect line with
      | some nm => acc ++ [('@' :: nm, '@' :: sub nm)]
      | none => acc)
    []

/-- Embedding of the substitution `rename` uses, built from the regex
`([_]*)(.*)` and the format `"{0}{2}_{1}"`: the leading underscore run,
then the prefix, an underscore, and the rest of the name. -/
def renameSub (pfx : List Char) (f : List Char) : List Char :=
  f.takeWhile (· == '_') ++ pfx ++ '_' :: f.dropWhile (· == '_')

/-- Match of the alternation of all mapping keys (in insertion order) at
the start of `rest`.  When there are no keys, `'|'.join` produces the empty
pattern, which matches the empty string. -/
def alternationMatch (keys : List (List Char)) (rest : List Char) : Option (List Char) :=
  match keys with
  | [] => some []
  | _ :: _ => keys.findSome? fun k => if k.isPrefixOf rest then some k else none

/-- Embedding of one `regex.sub(lambda m: mapping[m.group(0)], line)` call:
scan the line left to right, and at each position try the alternation; on a
match, look the matched text up in the mapping (a failed lookup is the
`KeyError` escaping the replacement callback, collapsing the whole
substitution to `none`). -/
def subLineAux (mapping : List (List Char × List Char)) :
    Nat → List Char → Option (List Char)
  | 0, rest => some rest
  | fuel + 1, rest =>
    match alternationMatch (mapping.map (·.1)) rest with
    | some k =>
      (match alookup k mapping with
       | none => none
       | some repl =>
         if k = [] then
           match rest with
           | [] => some repl
           | c :: r => (subLineAux mapping fuel r).map fun t => repl ++ c :: t
         else (subLineAux mapping fuel (rest.drop k.length)).map (repl ++ ·))
    | none =>
      match rest with
      | [] => some []
      | c :: r => (subLineAux mapping fuel r).map (c :: ·)

/-- Substitution over one line with enough fuel for every position. -/
def subLine (mapping : List (List Char × List Char)) (line : List Char) :
    Option (List Char) :=
  subLineAux mapping (line.length + 1) line

/-- Embedding of `substitute`: split the source text on newlines and run
the compiled pattern over every line; any raised `KeyError` aborts. -/
def substituteText (mapping : List (List Char × List Char)) (content : List Char) :
    Option (List Char) :=
  ((splitOnSep ['\n'] content).mapM (subLine mapping)).map (joinSep ['\n'])

/-- Embedding of `rename`: detect the defined symbols of the source text,
derive the prefixing map, and substitute it back over the text. -/
def renameEmb (pfx : List Char) (content : List Char) :
    Option (List (List Char × List Char) × List Char) :=
  let mapping := detect_names (splitOnSep ['\n'] content) (renameSub pfx)
  (substituteText mapping content).map fun out => (mapping, out)

/-! ## Call-wrapper generator (`prebuild.py`) -/

/-- Embedding of the per-function emission of `build_call_wrappers`: fork
the fetched signature under the name `lib_entry_<fn>` and render its
definition with the body `return <fn>(<argument names>);`. -/
def wrapper_entry (funcname : List Char) (s : Signature) : List Char :=
  let f := fork s (("lib_entry_".toList) ++ funcname)
  let args := joinSep (", ".toList) (f.args.map (·.name))
  definitionRender f (("return ".toList) ++ funcname ++ '(' :: args ++ (");".toList))

/-! ## Claim C3: error kind raised by a failing link -/

/-- Claim C3, counterexample: a linker child that exits with status 1 and
stderr `boom` makes the link operation fail with `CompileError("boom")`,
not with a `LinkerError` as the claim states — the `LinkerError` class is
declared but never raised. -/
theorem C3_counterexample :
    link ⟨1, "boom".toList⟩ = .error (.compileError ("boom".toList)) ∧
    isLinkerError (link ⟨1, "boom".toList⟩) = false := by
  exact ⟨rfl, rfl⟩

/-- Claim C3, amended: every invocation of the link operation in which the
external linker exits with a non-zero status fails with a `CompileError`
exception carrying the child's captured stderr as its message (the
`LinkerError` class exists but is never raised). -/
theorem C3_amended (p : ProcResult) (h : p.returncode ≠ 0) :
    link p = .error (.compileError p.stderr) := by
  simp [link, run_command, h]

/-- Witness for C3_amended at a concrete failing process result. -/
theorem C3_witness :
    (1 : Int) ≠ 0 ∧ link ⟨1, "e".toList⟩ = .error (.compileError ("e".toList)) :=
  ⟨by decide, C3_amended ⟨1, "e".toList⟩ (by decide)⟩

/-! ## Claim C9: batch compilation is failure-local and order-preserving -/

/-- Component facts of one `compile_collection` loop iteration. -/
theorem compileCollectionStep_parts (acc : List (List Char) × BatchStats) (it : BatchItem) :
    (compileCollectionStep acc it).1 =
      (if outcomeOk it.outcome then acc.1 ++ [it.dest] else acc.1) ∧
    (compileCollectionStep acc it).2.compiled =
      (if outcomeOk it.outcome then acc.2.compiled + 1 else acc.2.compiled) ∧
    (compileCollectionStep acc it).2.failed =
      (if outcomeOk it.outcome then acc.2.failed else acc.2.failed + 1) := by
  rcases h : it.outcome with w | m
  · rcases w with _ | w <;> simp [compileCollectionStep, h, outcomeOk]
  · simp [compileCollectionStep, h, outcomeOk]

/-- Generalised accumulator lemma for the `compile_collection` fold. -/
theorem compileCollection_go (items : List BatchItem) (fs : List (List Char))
    (st : BatchStats) :
    (items.foldl compileCollectionStep (fs, st)).1 =
      fs ++ (items.filter fun it => outcomeOk it.outcome).map (·.dest) ∧
    (items.foldl compileCollectionStep (fs, st)).2.compiled +
      (items.foldl compileCollectionStep (fs, st)).2.failed =
      st.compiled + st.failed + items.length := by
  induction items generalizing fs st with
  | nil => simp
  | cons it rest ih =>
    obtain ⟨p1, p2, p3⟩ := compileCollectionStep_parts (fs, st) it
    have key := ih (compileCollectionStep (fs, st) it).1 (compileCollectionStep (fs, st) it).2
    rw [Prod.mk.eta] at key
    rw [List.foldl_cons]
    obtain ⟨k1, k2⟩ := key
    refine ⟨?_, ?_⟩
    · rw [k1, p1, List.filter_cons]
      by_cases hok : outcomeOk it.outcome = true
      · simp [hok]
      · simp [Bool.eq_false_iff.mpr hok, hok]
    · rw [k2, p2, p3, List.length_cons]
      by_cases hok : outcomeOk it.outcome = true
      · simp only [hok, if_true]
        omega
      · simp only [hok, if_false, Bool.false_eq_true]
        omega

/-- Claim C9: `compile_collection` returns normally on every batch (its
result is a total function of the per-file outcomes — a per-file failure
only bumps a counter), processes every pair (the compiled and failed
counters sum to the batch length), and its first component is exactly the
destination list of the successfully compiled pairs, in iteration order. -/
theorem C9_batch (items : List BatchItem) :
    (compile_collection items).1 =
      (items.filter fun it => outcomeOk it.outcome).map (·.dest) ∧
    (compile_collection items).2.compiled + (compile_collection items).2.failed =
      items.length := by
  have h := compileCollection_go items [] ⟨0, 0, 0, 0⟩
  exact ⟨by simpa using h.1, by simpa using h.2⟩

/-! ## Claim C4: signature equality truncates to the shorter argument list -/

/-- Sample `int x` argument for the C4 counterexample. -/
def xIntVar : Variable := ⟨"int".toList, "x".toList, 0, -1, none⟩

/-- Sample `int y` argument for the C4 counterexample. -/
def yIntVar : Variable := ⟨"int".toList, "y".toList, 0, -1, none⟩

/-- Sample `void` return value for the C4 counterexample. -/
def voidRetVar : Variable := ⟨"void".toList, "unnamed".toList, 0, -1, none⟩

/-- Claim C4, counterexample: `void foo(int x)` and `void foo(int x, int y)`
have argument lists of different lengths, one a strict prefix of the other,
yet `Signature.__eq__` considers them equal: `zip` silently truncates. -/
theorem C4_counterexample :
    sigEq ⟨"foo".toList, [xIntVar], voidRetVar⟩
        ⟨"foo".toList, [xIntVar, yIntVar], voidRetVar⟩ = true ∧
    ([xIntVar].length ≠ [xIntVar, yIntVar].length) := by
  exact ⟨by decide, by decide⟩

/-- Pairwise equality on the common prefix of two argument lists. -/
theorem zip_all_varEq_iff (a b : List Variable) :
    ((a.zip b).all fun p => varEq p.1 p.2) = true ↔
      ∀ i, i < min a.length b.length →
        varEq (a.getD i voidRetVar) (b.getD i voidRetVar) = true := by
  induction a generalizing b with
  | nil => simp
  | cons x xs ih =>
    cases b with
    | nil => simp
    | cons y ys =>
      simp only [List.zip_cons_cons, List.all_cons, Bool.and_eq_true, ih]
      constructor
      · rintro ⟨hxy, hrest⟩ i hi
        cases i with
        | zero => simpa using hxy
        | succ i =>
          simp only [List.getD_cons_succ]
          exact hrest i (by simp at hi ⊢; omega)
      · intro h
        refine ⟨by simpa using h 0 (by simp), fun i hi => ?_⟩
        have := h (i + 1) (by simp at hi ⊢; omega)
        simpa using this

/-- Claim C4, amended: `Signature.__eq__` holds exactly when the names are
equal, the return `Variable`s are equal, and the argument sequences agree
pairwise on their common prefix — the lengths are not compared, so a
signature whose argument list is a prefix of another's compares equal. -/
theorem C4_amended (a b : Signature) :
    sigEq a b = true ↔
      a.name = b.name ∧ varEq a.ret b.ret = true ∧
        ∀ i, i < min a.args.length b.args.length →
          varEq (a.args.getD i voidRetVar) (b.args.getD i voidRetVar) = true := by
  simp only [sigEq, Bool.and_eq_true, decide_eq_true_eq, zip_all_varEq_iff, and_assoc]

/-! ## Claim C7: default null-termination assumptions -/

/-- Pointwise agreement of the code's assumption text with the one the
specification promises, for a non-negative array width. -/
theorem assumptionFor_eq_claim (aw : Int) (h : 0 ≤ aw) (v : Variable) :
    assumptionFor aw v = claimDefaultAssumption aw v := by
  rcases eq_or_lt_of_le h with h0 | hpos
  · simp [assumptionFor, claimDefaultAssumption, ← h0]
  · simp [assumptionFor, claimDefaultAssumption, hpos, ne_of_gt hpos]

/-- Generalised accumulator lemma for the `define_assumptions` fold. -/
theorem define_assumptions_go (aw : Int) (cache : List Variable)
    (acc : List (List Char)) :
    cache.foldl
      (fun acc v =>
        if isCharPtr v then acc ++ [assumptionFor aw v]
        else acc) acc =
    acc ++ (cache.filter isCharPtr).map (assumptionFor aw) := by
  induction cache generalizing acc with
  | nil => simp
  | cons v rest ih =>
    rw [List.foldl_cons, List.filter_cons]
    by_cases hv : isCharPtr v = true
    · simp only [hv, if_true, List.map_cons]
      rw [ih]
      simp
    · simp only [Bool.eq_false_iff.mpr hv, Bool.false_eq_true, if_false]
      exact ih acc

/-- Claim C7: for every argument in the synthesizer's argument cache the
default-assumption generator adds, exactly for the char-pointer arguments
and in cache order, the assumption `arg[array_size - 1] == '\0'` when
`array_width > 0` and `arg[0] == '\0'` when `array_width` is `0`; no
default assumption is added for non-char or non-pointer arguments. -/
theorem C7_default_assumptions (aw : Int) (cache : List Variable) (h : 0 ≤ aw) :
    define_assumptions aw cache =
      (cache.filter isCharPtr).map (claimDefaultAssumption aw) := by
  rw [define_assumptions, define_assumptions_go]
  simp only [List.nil_append]
  exact List.map_congr_left fun v _ => assumptionFor_eq_claim aw h v

/-- Char-pointer argument `s` of width 8 for the C7 witness (the spec's
`strlen` example). -/
def strlenArg : Variable := ⟨"char".toList, "s".toList, 1, 8, none⟩

/-- Witness for C7 at the spec's `strlen` example: with `array_width = 8`
the emitted assumption list is exactly the claimed one. -/
theorem C7_witness :
    (0 : Int) ≤ 8 ∧
    define_assumptions 8 [strlenArg] =
      ([strlenArg].filter isCharPtr).map (claimDefaultAssumption 8) :=
  ⟨by decide, C7_default_assumptions 8 [strlenArg] (by decide)⟩

/-! ## Claim C8: unsupported fuzzing input types -/

/-- Unsupported sample type for the C8 counterexample. -/
def floatVar : Variable := ⟨"float".toList, "x".toList, 0, -1, none⟩

/-- Claim C8, counterexample: for a `float` argument the fuzzing input
generator raises a bare `Exception()` whose message is empty — it does not
name the unsupported type (the type name is not a substring of the empty
message). -/
theorem C8_counterexample :
    define_input_fuzzing [(("default".toList), [])] floatVar = .error [] ∧
    containsSub ("float".toList) [] = false := by
  exact ⟨rfl, rfl⟩

/-- Claim C8, amended: the fuzzing input generator fails exactly on the
types outside the supported mapping, but the raised error carries an empty
message (it does not name the type); on every supported type it returns
input-reading code. -/
theorem C8_amended (v : Variable) (tcs : List (List Char × List Char)) :
    (claimSupportedType v = false ↔ define_input_fuzzing tcs v = .error []) ∧
    (claimSupportedType v = true ↔ ∃ out, define_input_fuzzing tcs v = .ok out) := by
  have hchar : v.type = ("char".toList) →
      (v.type == ("char".toList) && v.ptr_depth != 0) = true ∨
      (v.type == ("char".toList) && v.ptr_depth == 0) = true := by
    intro h
    rcases Nat.eq_zero_or_pos v.ptr_depth with hp | hp
    · right; simp [h, hp]
    · left
      simp only [Bool.and_eq_true, beq_iff_eq, bne_iff_ne, ne_eq]
      exact ⟨h, by omega⟩
  suffices h : (claimSupportedType v = true ∧ (define_input_fuzzing tcs v).isOk = true) ∨
      (claimSupportedType v = false ∧ define_input_fuzzing tcs v = .error []) by
    rcases h with ⟨hs, hok⟩ | ⟨hs, herr⟩
    · rcases hE : define_input_fuzzing tcs v with m | X
      · rw [hE] at hok; cases hok
      · rw [hs]
        exact ⟨by simp, by simp⟩
    · rw [hs, herr]
      exact ⟨by simp, by simp⟩
  by_cases h1 : (v.type == ("int".toList)) = true
  · refine Or.inl ⟨?_, ?_⟩
    · simp only [claimSupportedType, h1, Bool.true_or, Bool.or_true]
    · simp only [define_input_fuzzing, h1, if_true]
      rfl
  by_cases h2 : (v.type == ("size_t".toList)) = true
  · refine Or.inl ⟨?_, ?_⟩
    · simp only [claimSupportedType, h2, Bool.true_or, Bool.or_true]
    · simp only [define_input_fuzzing, Bool.eq_false_iff.mpr h1, h2, if_true,
        Bool.false_eq_true, if_false]
      rfl
  by_cases h3 : (v.type == ("char".toList) && v.ptr_depth != 0) = true
  · have hc : (v.type == ("char".toList)) = true := by
      simp only [Bool.and_eq_true] at h3
      exact h3.1
    refine Or.inl ⟨?_, ?_⟩
    · simp only [claimSupportedType, hc, Bool.true_or, Bool.or_true]
    · simp only [define_input_fuzzing, Bool.eq_false_iff.mpr h1, Bool.eq_false_iff.mpr h2,
        h3, if_true, Bool.false_eq_true, if_false]
      rfl
  by_cases h4 : (v.type == ("char".toList) && v.ptr_depth == 0) = true
  · have hc : (v.type == ("char".toList)) = true := by
      simp only [Bool.and_eq_true] at h4
      exact h4.1
    refine Or.inl ⟨?_, ?_⟩
    · simp only [claimSupportedType, hc, Bool.true_or, Bool.or_true]
    · simp only [define_input_fuzzing, Bool.eq_false_iff.mpr h1, Bool.eq_false_iff.mpr h2,
        Bool.eq_false_iff.mpr h3, h4, if_true, Bool.false_eq_true, if_false]
      rfl
  by_cases h5 : (v.type == ("long int".toList)) = true
  · refine Or.inl ⟨?_, ?_⟩
    · simp only [claimSupportedType, h5, Bool.true_or, Bool.or_true]
    · simp only [define_input_fuzzing, Bool.eq_false_iff.mpr h1, Bool.eq_false_iff.mpr h2,
        Bool.eq_false_iff.mpr h3, Bool.eq_false_iff.mpr h4, h5, if_true,
        Bool.false_eq_true, if_false]
      rfl
  by_cases h6 : (v.type == ("long long int".toList)) = true
  · refine Or.inl ⟨?_, ?_⟩
    · simp only [claimSupportedType, h6, Bool.true_or, Bool.or_true]
    · simp only [define_input_fuzzing, Bool.eq_false_iff.mpr h1, Bool.eq_false_iff.mpr h2,
        Bool.eq_false_iff.mpr h3, Bool.eq_false_iff.mpr h4, Bool.eq_false_iff.mpr h5, h6,
        if_true, Bool.false_eq_true, if_false]
      rfl
  by_cases h7 : (v.type == ("long".toList)) = true
  · refine Or.inl ⟨?_, ?_⟩
    · simp only [claimSupportedType, h7, Bool.true_or, Bool.or_true]
    · simp only [define_input_fuzzing, Bool.eq_false_iff.mpr h1, Bool.eq_false_iff.mpr h2,
        Bool.eq_false_iff.mpr h3, Bool.eq_false_iff.mpr h4, Bool.eq_false_iff.mpr h5,
        Bool.eq_false_iff.mpr h6, h7, if_true, Bool.false_eq_true, if_false]
      rfl
  by_cases h8 : (v.type == ("long long".toList)) = true
  · refine Or.inl ⟨?_, ?_⟩
    · simp only [claimSupportedType, h8, Bool.true_or, Bool.or_true]
    · simp only [define_input_fuzzing, Bool.eq_false_iff.mpr h1, Bool.eq_false_iff.mpr h2,
        Bool.eq_false_iff.mpr h3, Bool.eq_false_iff.mpr h4, Bool.eq_false_iff.mpr h5,
        Bool.eq_false_iff.mpr h6, Bool.eq_false_iff.mpr h7, h8, if_true,
        Bool.false_eq_true, if_false]
      rfl
  by_cases h9 : (v.type == ("wint_t".toList)) = true
  · refine Or.inl ⟨?_, ?_⟩
    · simp only [claimSupportedType, h9, Bool.true_or, Bool.or_true]
    · simp only [define_input_fuzzing, Bool.eq_false_iff.mpr h1, Bool.eq_false_iff.mpr h2,
        Bool.eq_false_iff.mpr h3, Bool.eq_false_iff.mpr h4, Bool.eq_false_iff.mpr h5,
        Bool.eq_false_iff.mpr h6, Bool.eq_false_iff.mpr h7, Bool.eq_false_iff.mpr h8, h9,
        if_true, Bool.false_eq_true, if_false]
      rfl
  have hcf : (v.type == ("char".toList)) = false := by
    by_contra hcc
    rw [Bool.not_eq_false] at hcc
    rcases hchar (by simpa using hcc) with hA | hA
    · exact h3 hA
    · exact h4 hA
  refine Or.inr ⟨?_, ?_⟩
  · simp only [claimSupportedType, Bool.eq_false_iff.mpr h1, Bool.eq_false_iff.mpr h2,
      Bool.eq_false_iff.mpr h5, Bool.eq_false_iff.mpr h6, Bool.eq_false_iff.mpr h7,
      Bool.eq_false_iff.mpr h8, Bool.eq_false_iff.mpr h9, hcf, Bool.or_self,
      Bool.or_false, Bool.false_or]
  · simp only [define_input_fuzzing, Bool.eq_false_iff.mpr h1, Bool.eq_false_iff.mpr h2,
      Bool.eq_false_iff.mpr h3, Bool.eq_false_iff.mpr h4, Bool.eq_false_iff.mpr h5,
      Bool.eq_false_iff.mpr h6, Bool.eq_false_iff.mpr h7, Bool.eq_false_iff.mpr h8,
      Bool.eq_false_iff.mpr h9, Bool.false_eq_true, if_false]

/-! ## Claim C2: call-wrapper bodies -/

/-- Splitting a newline-free line on newlines yields the line itself, for
any sufficient fuel. -/
theorem splitOnSepAux_nl (fuel : Nat) (l : List Char) (hf : l.length ≤ fuel)
    (h : '\n' ∉ l) : splitOnSepAux '\n' [] fuel l = [l] := by
  induction fuel generalizing l with
  | zero =>
    cases l with
    | nil => rfl
    | cons c r => simp at hf
  | succ fuel ih =>
    cases l with
    | nil => rfl
    | cons c r =>
      have hc : ¬ c = '\n' := fun hcc => h (hcc ▸ List.mem_cons_self c r)
      have hr : '\n' ∉ r := fun hm => h (List.mem_cons_of_mem c hm)
      rw [splitOnSepAux]
      have hpre : (['\n'].isPrefixOf (c :: r)) = false := by
        simp [List.isPrefixOf]
        intro hcc
        exact absurd hcc.symm hc
      rw [hpre]
      simp only [Bool.false_eq_true, if_false]
      rw [ih r (by simp at hf; omega) hr]

/-- Splitting a newline-free line on newlines yields the line itself. -/
theorem splitOnSep_nl_single (l : List Char) (h : '\n' ∉ l) :
    splitOnSep ['\n'] l = [l] :=
  splitOnSepAux_nl l.length l le_rfl h

/-- A character absent from a separator and from every piece is absent from
their join. -/
theorem joinSep_not_mem (c : Char) (sep : List Char) (pieces : List (List Char))
    (hs : c ∉ sep) (hp : ∀ x ∈ pieces, c ∉ x) : c ∉ joinSep sep pieces := by
  induction pieces with
  | nil => simp [joinSep]
  | cons a r ih =>
    cases r with
    | nil => exact hp a (by simp)
    | cons b t =>
      rw [joinSep]
      intro hmem
      rcases List.mem_append.mp hmem with hm | hm
      · rcases List.mem_append.mp hm with hm' | hm'
        · exact hp a (by simp) hm'
        · exact hs hm'
      · exact ih (fun x hx => hp x (List.mem_cons_of_mem a hx)) hm

/-- Sample `void foo(int x)` signature for the C2 counterexample. -/
def voidFooSig : Signature :=
  ⟨"foo".toList, [⟨"int".toList, "x".toList, 0, -1, none⟩],
   ⟨"void".toList, "unnamed".toList, 0, -1, none⟩⟩

/-- Claim C2, counterexample: for the void-returning signature
`void foo(int x)` the generator emits a body `return foo(x);` — it does
not emit the bare call `foo(x);` the claim demands for a void return. -/
theorem C2_counterexample :
    wrapper_entry ("foo".toList) voidFooSig =
      ("void lib_entry_foo(int x)\n\x7b\n\treturn foo(x);\n\x7d".toList) ∧
    wrapper_entry ("foo".toList) voidFooSig ≠
      ("void lib_entry_foo(int x)\n\x7b\n\tfoo(x);\n\x7d".toList) := by
  exact ⟨by decide, by decide⟩

/-- Claim C2, amended: for every function `fn` with fetched signature `S`
(whose name and argument names are single-line), the generator emits a
definition of `lib_entry_<fn>` with the same signature as `S` — same
rendered return type and same rendered argument list — whose body is
always `return fn(arg1, …);`, including when `S.ret` is `void` (there is
no bare-call case). -/
theorem C2_amended (fn : List Char) (s : Signature)
    (hfn : '\n' ∉ fn) (hargs : ∀ v ∈ s.args, '\n' ∉ v.name) :
    wrapper_entry fn s =
      (if s.ret.ptr_depth ≠ 0 then
         typeStr s.ret ++ (("lib_entry_".toList) ++ fn)
       else typeStr s.ret ++ ' ' :: (("lib_entry_".toList) ++ fn))
      ++ '(' :: joinSep (", ".toList) (s.args.map varStr)
      ++ [')'] ++ ['\n'] ++ ['\x7b'] ++ ['\n']
      ++ '\t' :: (("return ".toList) ++ fn
        ++ '(' :: joinSep (", ".toList) (s.args.map (·.name)) ++ (");".toList))
      ++ ['\n'] ++ ['\x7d'] := by
  have hjoin : '\n' ∉ joinSep (", ".toList) (s.args.map (·.name)) := by
    refine joinSep_not_mem '\n' _ _ (by decide) ?_
    intro x hx
    obtain ⟨v, hv, rfl⟩ := List.mem_map.mp hx
    exact hargs v hv
  have hbody : '\n' ∉ ("return ".toList) ++ fn ++
      '(' :: (joinSep (", ".toList) (s.args.map (·.name)) ++ (");".toList)) := by
    intro hm
    rcases List.mem_append.mp hm with hm | hm
    · rcases List.mem_append.mp hm with hm | hm
      · exact absurd hm (by decide)
      · exact hfn hm
    · rcases List.mem_cons.mp hm with hm | hm
      · exact absurd hm (by decide)
      · rcases List.mem_append.mp hm with hm | hm
        · exact hjoin hm
        · exact absurd hm (by decide)
  unfold wrapper_entry definitionRender fork
  simp only
  rw [show (("return ".toList) ++ fn ++
      '(' :: joinSep (", ".toList) (s.args.map (·.name)) ++ (");".toList)) =
    (("return ".toList) ++ fn ++
      '(' :: (joinSep (", ".toList) (s.args.map (·.name)) ++ (");".toList))) by
    simp [List.append_assoc]]
  rw [splitOnSep_nl_single _ hbody]
  by_cases hp : s.ret.ptr_depth = 0
  · simp [hp, typeStr, joinSep, List.append_assoc]
  · simp [hp, typeStr, joinSep, List.append_assoc]

/-- The `int isdigit(int c)` signature used by the C2 witness. -/
def isdigitSig : Signature :=
  ⟨"isdigit".toList, [⟨"int".toList, "c".toList, 0, -1, none⟩],
   ⟨"int".toList, "unnamed".toList, 0, -1, none⟩⟩

/-- Witness for C2_amended at the `int isdigit(int c)` signature. -/
theorem C2_witness :
    ('\n' ∉ ("isdigit".toList)) ∧
    wrapper_entry ("isdigit".toList) isdigitSig =
      (if isdigitSig.ret.ptr_depth ≠ 0 then
         typeStr isdigitSig.ret ++ (("lib_entry_".toList) ++ ("isdigit".toList))
       else typeStr isdigitSig.ret ++ ' ' :: (("lib_entry_".toList) ++ ("isdigit".toList)))
      ++ '(' :: joinSep (", ".toList) (isdigitSig.args.map varStr)
      ++ [')'] ++ ['\n'] ++ ['\x7b'] ++ ['\n']
      ++ '\t' :: (("return ".toList) ++ ("isdigit".toList)
        ++ '(' :: joinSep (", ".toList) (isdigitSig.args.map (·.name)) ++ (");".toList))
      ++ ['\n'] ++ ['\x7d'] :=
  ⟨by decide,
   C2_amended ("isdigit".toList) isdigitSig (by decide)
     (by intro v hv; simp [isdigitSig] at hv; subst hv; decide)⟩

/-! ## Claim C6: shape of the rename substitution -/

/-- Every entry collected by the `detect_names` fold comes from a detected
line, or was already in the accumulator. -/
theorem detect_names_go (lines : List (List Char)) (sub : List Char → List Char)
    (acc : List (List Char × List Char)) (p : List Char × List Char)
    (hp : p ∈ lines.foldl
      (fun acc line =>
        match lineDetect line with
        | some nm => acc ++ [('@' :: nm, '@' :: sub nm)]
        | none => acc) acc) :
    p ∈ acc ∨ ∃ nm, p = ('@' :: nm, '@' :: sub nm) := by
  induction lines generalizing acc with
  | nil => exact Or.inl hp
  | cons line rest ih =>
    rw [List.foldl_cons] at hp
    rcases hL : lineDetect line with _ | nm
    · rw [hL] at hp
      exact ih acc hp
    · rw [hL] at hp
      rcases ih _ hp with hacc | hex
      · rcases List.mem_append.mp hacc with h1 | h2
        · exact Or.inl h1
        · right
          refine ⟨nm, ?_⟩
          simpa using h2
      · exact Or.inr hex

/-- Claim C6: every symbol name detected as defined is mapped by `rename`'s
substitution to its leading underscore run, followed by the prefix, an
underscore, and the remainder of the name. -/
theorem C6_rename_shape (pfx : List Char) (lines : List (List Char))
    (k v : List Char) (h : (k, v) ∈ detect_names lines (renameSub pfx)) :
    ∃ nm, k = '@' :: nm ∧
      v = '@' :: (nm.takeWhile (· == '_') ++ pfx ++ '_' :: nm.dropWhile (· == '_')) := by
  rcases detect_names_go lines (renameSub pfx) [] (k, v) h with hacc | ⟨nm, hp⟩
  · simp at hacc
  · refine ⟨nm, ?_, ?_⟩
    · exact congrArg Prod.fst hp
    · have hv := congrArg Prod.snd hp
      simpa [renameSub] using hv

/-- Witness for C6 at the spec's examples: `@__errno` with prefix `musl`
maps to `@__musl_errno` (leading underscores preserved) and `@strcpy` to
`@musl_strcpy`. -/
theorem C6_witness :
    (("@__errno".toList, "@__musl_errno".toList) ∈
        detect_names [("@__errno = global i32 0".toList)] (renameSub ("musl".toList))) ∧
    (∃ nm, "@__errno".toList = '@' :: nm ∧
      "@__musl_errno".toList =
        '@' :: (nm.takeWhile (· == '_') ++ ("musl".toList) ++ '_' ::
          nm.dropWhile (· == '_'))) ∧
    (("@strcpy".toList, "@musl_strcpy".toList) ∈
        detect_names [("define i32 @strcpy(i8* %d, i8* %s)".toList)]
          (renameSub ("musl".toList))) :=
  ⟨by decide, C6_rename_shape ("musl".toList) [("@__errno = global i32 0".toList)] _ _
    (by decide), by decide⟩

/-! ## Claim C10: substitution with an empty rename mapping -/

/-- With an empty mapping the compiled pattern is the empty alternation,
which matches the empty string at position zero; the replacement callback
then looks the empty match up in the empty mapping and raises `KeyError`,
so every line (even the empty one) fails to substitute. -/
theorem subLine_empty_mapping (l : List Char) : subLine [] l = none := by
  rfl

/-- `splitOnSepAux` always produces at least one piece. -/
theorem splitOnSepAux_ne_nil (s0 : Char) (sr : List Char) (fuel : Nat) (l : List Char) :
    splitOnSepAux s0 sr fuel l ≠ [] := by
  cases fuel with
  | zero => cases l <;> simp [splitOnSepAux]
  | succ fuel =>
    cases l with
    | nil => simp [splitOnSepAux]
    | cons c r =>
      rw [splitOnSepAux]
      by_cases hpre : ((s0 :: sr).isPrefixOf (c :: r)) = true
      · simp [hpre]
      · simp only [Bool.eq_false_iff.mpr hpre, Bool.false_eq_true, if_false]
        rcases hsp : splitOnSepAux s0 sr fuel r with _ | ⟨a, t⟩ <;> simp

/-- `splitOnSep` always produces at least one piece. -/
theorem splitOnSep_ne_nil (sep l : List Char) : splitOnSep sep l ≠ [] := by
  cases sep with
  | nil => simp [splitOnSep]
  | cons s0 sr => exact splitOnSepAux_ne_nil s0 sr l.length l

/-- Claim C10: when no defined symbol is detected (the rename mapping is
empty) and the source text is non-empty, `substitute` raises instead of
writing the text through unchanged, because the alternation built from zero
keys matches the empty string and the replacement lookup fails; hence
`rename` is only total on sources with at least one defined symbol. -/
theorem C10_empty_mapping (pfx content : List Char) (_hne : content ≠ [])
    (hdet : detect_names (splitOnSep ['\n'] content) (renameSub pfx) = []) :
    renameEmb pfx content = none := by
  have hsub : substituteText [] content = none := by
    unfold substituteText
    rcases hsp : splitOnSep ['\n'] content with _ | ⟨x, xs⟩
    · exact absurd hsp (splitOnSep_ne_nil _ _)
    · rw [List.mapM_cons, subLine_empty_mapping]
      rfl
  unfold renameEmb
  rw [hdet]
  simp only [hsub, Option.map_none']

/-! ## Claim C1: the clustering verifier -/

/-- Reading a just-written cell of the mapping array. -/
theorem getD_set_self (l : List Int) (i : Nat) (v : Int) (h : i < l.length) :
    (l.set i v).getD i UNALLOC = v := by
  induction l generalizing i with
  | nil => simp at h
  | cons a t ih =>
    cases i with
    | zero => rfl
    | succ i => exact ih i (by simpa using h)

/-- Reading any other cell of the mapping array after a write. -/
theorem getD_set_ne (l : List Int) (i j : Nat) (v : Int) (h : i ≠ j) :
    (l.set i v).getD j UNALLOC = l.getD j UNALLOC := by
  induction l generalizing i j with
  | nil => simp
  | cons a t ih =>
    cases i with
    | zero =>
      cases j with
      | zero => exact absurd rfl h
      | succ j => rfl
    | succ i =>
      cases j with
      | zero => rfl
      | succ j => exact ih i j (by omega)

/-- Every cell of the freshly initialised mapping array is `UNALLOCATED`. -/
theorem getD_replicate (n i : Nat) :
    (List.replicate n UNALLOC).getD i UNALLOC = UNALLOC := by
  induction n generalizing i with
  | zero => rfl
  | succ n ih =>
    cases i with
    | zero => rfl
    | succ i => exact ih i

/-- The loop invariant of the emitted clustering pass after the first `i`
iterations of the outer loop: exactly the prefix is clustered, two
processed libraries share a cluster index iff `lib_eval` relates them,
every stored index is a successor of an earlier library index, and the
cluster counter is `1` precisely when all processed pairs are related. -/
def VInv (ev : Nat → Nat → Int) (n i : Nat) (st : List Int × Nat) : Prop :=
  st.1.length = n ∧
  (∀ j, j < i → st.1.getD j UNALLOC ≠ UNALLOC) ∧
  (∀ j, i ≤ j → st.1.getD j UNALLOC = UNALLOC) ∧
  (∀ j k, j < i → k < i →
    (st.1.getD j UNALLOC = st.1.getD k UNALLOC ↔ ev j k = 0)) ∧
  (∀ j, j < i → ∃ r, r ≤ j ∧ st.1.getD j UNALLOC = (r : Int) + 1) ∧
  (i = 0 → st.2 = 0) ∧
  (0 < i → 0 < st.2 ∧ (st.2 = 1 ↔ ∀ j k, j < i → k < i → ev j k = 0))

/-- When some already-clustered library is equivalent to `i`, the inner
scan finds one (already clustered means: of smaller index). -/
theorem innerScan_found (ev : Nat → Nat → Int) (n i : Nat) (st : List Int × Nat)
    (hi : i < n) (hinv : VInv ev n i st) (hex : ∃ j, j < i ∧ ev i j = 0) :
    ∃ j0, innerScan ev n st.1 i = some j0 ∧ j0 < i ∧ ev i j0 = 0 := by
  obtain ⟨hlen, halloc, hunalloc, _, _, _, _⟩ := hinv
  obtain ⟨j, hji, hevj⟩ := hex
  have hsome : (innerScan ev n st.1 i).isSome := by
    rw [innerScan, List.find?_isSome]
    refine ⟨j, List.mem_range.mpr (by omega), ?_⟩
    have h1 : (j == i) = false := by
      simp only [beq_eq_false_iff_ne, ne_eq]
      omega
    have h2 : (st.1.getD j UNALLOC == UNALLOC) = false := by
      simp only [beq_eq_false_iff_ne, ne_eq]
      exact halloc j hji
    simp only [h1, h2, hevj, Bool.or_self, Bool.not_false, Bool.true_and,
      beq_self_eq_true]
  obtain ⟨j0, hj0⟩ := Option.isSome_iff_exists.mp hsome
  rw [innerScan] at hj0
  have hp := List.find?_some hj0
  simp only [Bool.and_eq_true, Bool.not_eq_true', Bool.or_eq_false_iff,
    beq_eq_false_iff_ne, ne_eq, beq_iff_eq] at hp
  obtain ⟨⟨hne, hfill⟩, hev⟩ := hp
  refine ⟨j0, by rw [innerScan]; exact hj0, ?_, hev⟩
  by_contra hgt
  exact hfill (hunalloc j0 (by omega))

/-- When no already-clustered library is equivalent to `i`, the inner scan
finds nothing. -/
theorem innerScan_none (ev : Nat → Nat → Int) (n i : Nat) (st : List Int × Nat)
    (hinv : VInv ev n i st) (hall : ∀ j, j < i → ev i j ≠ 0) :
    innerScan ev n st.1 i = none := by
  obtain ⟨hlen, halloc, hunalloc, _, _, _, _⟩ := hinv
  rw [innerScan, List.find?_eq_none]
  intro x hx
  simp only [Bool.and_eq_true, Bool.not_eq_true', Bool.or_eq_false_iff,
    beq_eq_false_iff_ne, ne_eq, beq_iff_eq, not_and]
  intro ⟨hxi, hfill⟩
  rcases Nat.lt_or_ge x i with hlt | hge
  · exact hall x hlt
  · exact absurd (hunalloc x hge) hfill

/-- One outer-loop iteration preserves the clustering invariant, assuming
the `lib_eval` kernel is an equivalence on the library indices. -/
theorem stepVerif_inv (ev : Nat → Nat → Int) (n i : Nat) (st : List Int × Nat)
    (hi : i < n)
    (hrefl : ∀ a, a < n → ev a a = 0)
    (hsymm : ∀ a b, a < n → b < n → ev a b = 0 → ev b a = 0)
    (htrans : ∀ a b c, a < n → b < n → c < n → ev a b = 0 → ev b c = 0 → ev a c = 0)
    (hinv : VInv ev n i st) :
    VInv ev n (i + 1) (stepVerif ev n st i) := by
  obtain ⟨hlen, halloc, hunalloc, hP2, hP4, hc0, hcpos⟩ := hinv
  have hgi : st.1.getD i UNALLOC = UNALLOC := hunalloc i le_rfl
  have hcond : ¬ (st.1.getD i UNALLOC ≠ UNALLOC) := by rw [hgi]; simp
  by_cases hex : ∃ j, j < i ∧ ev i j = 0
  · obtain ⟨j0, hscan, hj0i, hevij0⟩ := innerScan_found ev n i st hi
      ⟨hlen, halloc, hunalloc, hP2, hP4, hc0, hcpos⟩ hex
    have hpos' : 0 < i := by omega
    have hgj0 : st.1.getD j0 UNALLOC ≠ UNALLOC := halloc j0 hj0i
    have hstep : stepVerif ev n st i =
        (st.1.set i (st.1.getD j0 UNALLOC), st.2) := by
      unfold stepVerif
      rw [if_neg hcond, hscan]
      simp only
      rw [getD_set_self st.1 i _ (by omega)]
      rw [if_neg hgj0]
    rw [hstep]
    have hsetI : (st.1.set i (st.1.getD j0 UNALLOC)).getD i UNALLOC =
        st.1.getD j0 UNALLOC := getD_set_self st.1 i _ (by omega)
    have hsetO : ∀ j, j ≠ i →
        (st.1.set i (st.1.getD j0 UNALLOC)).getD j UNALLOC = st.1.getD j UNALLOC :=
      fun j hj => getD_set_ne st.1 i j _ (fun h => hj h.symm)
    refine ⟨by simpa using hlen, ?_, ?_, ?_, ?_, by omega, ?_⟩
    · intro j hj
      rcases Nat.lt_or_ge j i with hji | hji
      · rw [hsetO j (by omega)]
        exact halloc j hji
      · have hj' : j = i := by omega
        rw [hj', hsetI]
        exact hgj0
    · intro j hj
      rw [hsetO j (by omega)]
      exact hunalloc j (by omega)
    · intro j k hj hk
      have hiff : ∀ a, a < i → (ev a j0 = 0 ↔ ev a i = 0) := by
        intro a ha
        constructor
        · intro h
          exact htrans a j0 i (by omega) (by omega) hi h
            (hsymm i j0 hi (by omega) hevij0)
        · intro h
          exact htrans a i j0 (by omega) hi (by omega) h hevij0
      rcases Nat.lt_or_ge j i with hji | hji <;> rcases Nat.lt_or_ge k i with hki | hki
      · rw [hsetO j (by omega), hsetO k (by omega)]
        exact hP2 j k hji hki
      · have hk' : k = i := by omega
        rw [hk', hsetO j (by omega), hsetI, hP2 j j0 hji hj0i]
        exact hiff j hji
      · have hj' : j = i := by omega
        rw [hj', hsetO k (by omega), hsetI]
        constructor
        · intro h
          have h1 : ev k j0 = 0 := (hP2 k j0 hki hj0i).mp h.symm
          have h2 : ev k i = 0 := (hiff k hki).mp h1
          exact hsymm k i (by omega) hi h2
        · intro h
          have h1 : ev k i = 0 := hsymm i k hi (by omega) h
          have h2 : ev k j0 = 0 := (hiff k hki).mpr h1
          exact ((hP2 k j0 hki hj0i).mpr h2).symm
      · have hj' : j = i := by omega
        have hk' : k = i := by omega
        rw [hj', hk', hsetI]
        simp [hrefl i hi]
    · intro j hj
      rcases Nat.lt_or_ge j i with hji | hji
      · rw [hsetO j (by omega)]
        exact hP4 j hji
      · have hj' : j = i := by omega
        rw [hj']
        obtain ⟨r, hr, hval⟩ := hP4 j0 hj0i
        exact ⟨r, by omega, by rw [hsetI]; exact hval⟩
    · intro _
      obtain ⟨hc1, hciff⟩ := hcpos hpos'
      refine ⟨hc1, ?_⟩
      rw [hciff]
      constructor
      · intro hAll j k hj hk
        rcases Nat.lt_or_ge j i with hji | hji <;> rcases Nat.lt_or_ge k i with hki | hki
        · exact hAll j k hji hki
        · have hk' : k = i := by omega
          rw [hk']
          exact htrans j j0 i (by omega) (by omega) hi (hAll j j0 hji hj0i)
            (hsymm i j0 hi (by omega) hevij0)
        · have hj' : j = i := by omega
          rw [hj']
          exact htrans i j0 k hi (by omega) (by omega) hevij0 (hAll j0 k hj0i hki)
        · have hj' : j = i := by omega
          have hk' : k = i := by omega
          rw [hj', hk']
          exact hrefl i hi
      · intro hAll j k hj hk
        exact hAll j k (by omega) (by omega)
  · push_neg at hex
    have hall : ∀ j, j < i → ev i j ≠ 0 := fun j hj h => hex j hj h
    have hscan := innerScan_none ev n i st
      ⟨hlen, halloc, hunalloc, hP2, hP4, hc0, hcpos⟩ hall
    have hstep : stepVerif ev n st i = (st.1.set i ((i : Int) + 1), st.2 + 1) := by
      unfold stepVerif
      rw [if_neg hcond, hscan]
      simp only
      rw [if_pos hgi]
    rw [hstep]
    have hsetI : (st.1.set i ((i : Int) + 1)).getD i UNALLOC = (i : Int) + 1 :=
      getD_set_self st.1 i _ (by omega)
    have hsetO : ∀ j, j ≠ i →
        (st.1.set i ((i : Int) + 1)).getD j UNALLOC = st.1.getD j UNALLOC :=
      fun j hj => getD_set_ne st.1 i j _ (fun h => hj h.symm)
    refine ⟨by simpa using hlen, ?_, ?_, ?_, ?_, by omega, ?_⟩
    · intro j hj
      rcases Nat.lt_or_ge j i with hji | hji
      · rw [hsetO j (by omega)]
        exact halloc j hji
      · have hj' : j = i := by omega
        rw [hj', hsetI]
        simp only [UNALLOC]
        omega
    · intro j hj
      rw [hsetO j (by omega)]
      exact hunalloc j (by omega)
    · intro j k hj hk
      rcases Nat.lt_or_ge j i with hji | hji <;> rcases Nat.lt_or_ge k i with hki | hki
      · rw [hsetO j (by omega), hsetO k (by omega)]
        exact hP2 j k hji hki
      · have hk' : k = i := by omega
        rw [hk', hsetO j (by omega), hsetI]
        obtain ⟨r, hr, hval⟩ := hP4 j hji
        constructor
        · intro h
          exfalso
          rw [hval] at h
          have hri : r = i := by omega
          omega
        · intro h
          exfalso
          exact (hall j hji) (hsymm j i (by omega) hi h)
      · have hj' : j = i := by omega
        rw [hj', hsetO k (by omega), hsetI]
        obtain ⟨r, hr, hval⟩ := hP4 k hki
        constructor
        · intro h
          exfalso
          rw [hval] at h
          have hri : i = r := by omega
          omega
        · intro h
          exfalso
          exact (hall k hki) h
      · have hj' : j = i := by omega
        have hk' : k = i := by omega
        rw [hj', hk', hsetI]
        simp [hrefl i hi]
    · intro j hj
      rcases Nat.lt_or_ge j i with hji | hji
      · rw [hsetO j (by omega)]
        exact hP4 j hji
      · have hj' : j = i := by omega
        rw [hj']
        exact ⟨i, le_rfl, hsetI⟩
    · intro _
      refine ⟨by omega, ?_⟩
      rcases Nat.eq_zero_or_pos i with hiz | hip
      · have hc : st.2 = 0 := hc0 hiz
        rw [hc]
        constructor
        · intro _ j k hj hk
          have hj0 : j = 0 := by omega
          have hk0 : k = 0 := by omega
          rw [hj0, hk0]
          exact hrefl 0 (by omega)
        · intro _
          rfl
      · obtain ⟨hc1, _⟩ := hcpos hip
        constructor
        · intro h
          omega
        · intro hAll
          exact absurd (hAll i 0 (by omega) (by omega)) (hall 0 hip)

/-- The clustering invariant holds after the whole outer loop. -/
theorem runVerifier_inv (ev : Nat → Nat → Int) (n : Nat)
    (hrefl : ∀ a, a < n → ev a a = 0)
    (hsymm : ∀ a b, a < n → b < n → ev a b = 0 → ev b a = 0)
    (htrans : ∀ a b c, a < n → b < n → c < n → ev a b = 0 → ev b c = 0 → ev a c = 0) :
    VInv ev n n (runVerifier ev n) := by
  suffices h : ∀ m, m ≤ n →
      VInv ev n m ((List.range m).foldl (stepVerif ev n) (List.replicate n UNALLOC, 0)) by
    exact h n le_rfl
  intro m
  induction m with
  | zero =>
    intro _
    refine ⟨by simp, by omega, ?_, by omega, by omega, fun _ => rfl, by omega⟩
    intro j _
    exact getD_replicate n j
  | succ m ih =>
    intro hm
    rw [List.range_succ, List.foldl_append, List.foldl_cons, List.foldl_nil]
    exact stepVerif_inv ev n m _ (by omega) hrefl hsymm htrans (ih (by omega))

/-- Claim C1, amended: for `N ≥ 1` libraries and a `lib_eval` kernel that
is an equivalence relation on the indices (reflexive, symmetric and
transitive — the default `lib_eval`, equality of return values, is one),
the emitted clustering verifier calls `sputnik_abort` iff more than one
equivalence class exists, i.e. iff some pair of libraries is unrelated;
with all `eval_return_values` equal, `count_cluster` is `1` and no abort
fires.  (For a merely symmetric, non-transitive relation the equivalence
fails — see the counterexample.) -/
theorem C1_amended (ev : Nat → Nat → Int) (n : Nat) (hn : 1 ≤ n)
    (hrefl : ∀ a, a < n → ev a a = 0)
    (hsymm : ∀ a b, a < n → b < n → ev a b = 0 → ev b a = 0)
    (htrans : ∀ a b c, a < n → b < n → c < n → ev a b = 0 → ev b c = 0 → ev a c = 0) :
    (verifierAborts ev n = true ↔ ∃ i j, i < n ∧ j < n ∧ ev i j ≠ 0) ∧
    ((∀ i j, i < n → j < n → ev i j = 0) →
      count_cluster ev n = 1 ∧ verifierAborts ev n = false) := by
  obtain ⟨_, _, _, _, _, _, hcpos⟩ := runVerifier_inv ev n hrefl hsymm htrans
  obtain ⟨hpos, hone⟩ := hcpos (by omega)
  have habort : verifierAborts ev n = true ↔ 1 < (runVerifier ev n).2 := by
    rw [verifierAborts, decide_eq_true_iff]
    exact Iff.rfl
  constructor
  · rw [habort]
    constructor
    · intro hgt
      by_contra hno
      push_neg at hno
      have h1 : (runVerifier ev n).2 = 1 :=
        hone.mpr fun j k hj hk => hno j k hj hk
      omega
    · rintro ⟨i, j, hi, hj, hne⟩
      have h1 : (runVerifier ev n).2 ≠ 1 := by
        intro h
        exact hne (hone.mp h i j hi hj)
      omega
  · intro hall
    have h1 : (runVerifier ev n).2 = 1 := hone.mpr fun j k hj hk => hall j k hj hk
    refine ⟨h1, ?_⟩
    rw [verifierAborts, count_cluster, h1]
    rfl

/-- The merely symmetric, non-transitive relation of the C1
counterexample: library 2 agrees with both 0 and 1, which disagree with
each other. -/
def evNonTrans : Nat → Nat → Int := fun i j =>
  if (i = 0 ∧ j = 1) ∨ (i = 1 ∧ j = 0) then 1 else 0

/-- Claim C1, counterexample: `evNonTrans` is symmetric (and reflexive) on
three libraries, and all three lie in one equivalence class of its
closure, yet the emitted clustering verifier aborts — so the claim's "for
every symmetric lib_eval relation, abort iff more than one class" fails:
greedy clustering without transitivity splits a single class. -/
theorem C1_counterexample :
    verifierAborts evNonTrans 3 = true ∧
    (∀ i, i < 3 → ∀ j, j < 3 → evNonTrans i j = evNonTrans j i) ∧
    (∀ i, i < 3 → evNonTrans i i = 0) ∧
    (∀ i, i < 3 → ∀ j, j < 3 → transClose evNonTrans 3 i j = true) := by
  refine ⟨by decide, by decide, by decide, by decide⟩

/-- The all-equal `lib_eval` kernel used by the C1 witness. -/
def evAllEqual : Nat → Nat → Int := fun _ _ => 0

/-- Witness for C1_amended on two libraries whose return values always
agree: the hypotheses hold, no abort fires and exactly one cluster is
counted. -/
theorem C1_witness :
    ((1 ≤ 2) ∧ (∀ a, a < 2 → evAllEqual a a = 0) ∧
     (∀ a b, a < 2 → b < 2 → evAllEqual a b = 0 → evAllEqual b a = 0) ∧
     (∀ a b c, a < 2 → b < 2 → c < 2 →
        evAllEqual a b = 0 → evAllEqual b c = 0 → evAllEqual a c = 0)) ∧
    ((verifierAborts evAllEqual 2 = true ↔
        ∃ i j, i < 2 ∧ j < 2 ∧ evAllEqual i j ≠ 0) ∧
     ((∀ i j, i < 2 → j < 2 → evAllEqual i j = 0) →
        count_cluster evAllEqual 2 = 1 ∧ verifierAborts evAllEqual 2 = false)) :=
  ⟨⟨by omega, fun _ _ => rfl, fun _ _ _ _ h => h, fun _ _ _ _ _ _ _ _ => rfl⟩,
   C1_amended evAllEqual 2 (by omega) (fun _ _ => rfl) (fun _ _ _ _ h => h)
     (fun _ _ _ _ _ _ _ _ => rfl)⟩

/-! ## Claim C5: groundwork on lists

The round-trip proof for `Signature.parse` needs a shape invariant on the
text between the parsed groups: after any whitespace character no `(` may
follow, otherwise the greedy `(.*)\s` group of the declaration regex would
have matched at a later split position. -/

/-- No `(` occurs anywhere after any whitespace character. -/
def WsParen (l : List Char) : Prop :=
  ∀ u w v, l = u ++ w :: v → pyIsWs w → '(' ∉ v

/-- A parenthesis-free list trivially satisfies the invariant. -/
theorem WsParen_of_noParen (l : List Char) (h : '(' ∉ l) : WsParen l := by
  intro u w v heq _ hv
  exact h (heq ▸ List.mem_append.mpr (Or.inr (List.mem_cons_of_mem _ hv)))

/-- A whitespace-free list trivially satisfies the invariant. -/
theorem WsParen_of_noWs (l : List Char) (h : ∀ c ∈ l, ¬ pyIsWs c) : WsParen l := by
  intro u w v heq hw _
  exact absurd hw (h w (heq ▸ List.mem_append.mpr (Or.inr (List.mem_cons_self _ _))))

/-- The invariant restricts to the right part of an append. -/
theorem WsParen.append_right {x y : List Char} (h : WsParen (x ++ y)) : WsParen y := by
  intro u w v heq hw
  exact h (x ++ u) w v (by rw [heq, List.append_assoc]) hw

/-- The invariant restricts to the left part of an append. -/
theorem WsParen.append_left {x y : List Char} (h : WsParen (x ++ y)) : WsParen x := by
  intro u w v heq hw hv
  have := h u w (v ++ y) (by rw [heq]; simp) hw
  exact this (List.mem_append.mpr (Or.inl hv))

/-- If a `(` occurs on the right of an append with the invariant, the left
part is whitespace-free. -/
theorem WsParen.cross {x y : List Char} (h : WsParen (x ++ y)) (hy : '(' ∈ y) :
    ∀ c ∈ x, ¬ pyIsWs c := by
  intro c hc hw
  obtain ⟨u, v, rfl⟩ := List.append_of_mem hc
  have := h u c (v ++ y) (by simp) hw
  exact this (List.mem_append.mpr (Or.inr hy))

/-- Combining the invariant across an append. -/
theorem WsParen.build {x y : List Char} (hx : WsParen x) (hy : WsParen y)
    (hcross : '(' ∈ y → ∀ c ∈ x, ¬ pyIsWs c) : WsParen (x ++ y) := by
  intro u w v heq hw hv
  rcases List.append_eq_append_iff.mp heq with ⟨a', _, ha2⟩ | ⟨c', hc1, hc2⟩
  · exact hy a' w v ha2 hw hv
  · cases c' with
    | nil =>
      simp only [List.nil_append] at hc2
      exact hy [] w v hc2.symm hw hv
    | cons w'' cs =>
      obtain ⟨hww, hv'⟩ : w = w'' ∧ v = cs ++ y := by
        simpa using hc2
      have hxeq : x = u ++ w :: cs := by rw [hc1, hww]
      rcases List.mem_append.mp (hv' ▸ hv) with hcs | hyy
      · exact hx u w cs hxeq hw hcs
      · refine hcross hyy w ?_ hw
        rw [hxeq]
        exact List.mem_append.mpr (Or.inr (List.mem_cons_self _ _))

/-- The invariant restricts to a prefix. -/
theorem WsParen.take {l : List Char} (h : WsParen l) (n : Nat) : WsParen (l.take n) := by
  have heq : l = l.take n ++ l.drop n := (List.take_append_drop n l).symm
  exact WsParen.append_left (heq ▸ h)

/-- The invariant restricts to a suffix. -/
theorem WsParen.drop {l : List Char} (h : WsParen l) (n : Nat) : WsParen (l.drop n) := by
  have heq : l = l.take n ++ l.drop n := (List.take_append_drop n l).symm
  exact WsParen.append_right (heq ▸ h)

/-- Characterisation of a successful `breakAtP`. -/
theorem breakAtP_some (p : Char → Bool) (l a b : List Char)
    (h : breakAtP p l = some (a, b)) :
    (∀ c ∈ a, p c = false) ∧ ∃ c, p c = true ∧ l = a ++ c :: b := by
  induction l generalizing a with
  | nil => simp [breakAtP] at h
  | cons x xs ih =>
    rw [breakAtP] at h
    by_cases hx : p x = true
    · simp only [hx, if_true] at h
      have h' := Option.some.inj h
      have ha : a = [] := (congrArg Prod.fst h').symm
      have hb : b = xs := (congrArg Prod.snd h').symm
      subst ha; subst hb
      exact ⟨by simp, x, hx, rfl⟩
    · simp only [hx, if_false, Bool.false_eq_true] at h
      rcases hrec : breakAtP p xs with _ | ⟨a', b'⟩
      · rw [hrec] at h; cases h
      · rw [hrec] at h
        have h' := Option.some.inj h
        have ha : a = x :: a' := (congrArg Prod.fst h').symm
        have hb : b = b' := (congrArg Prod.snd h').symm
        subst ha; subst hb
        obtain ⟨hall, c, hc, hsplit⟩ := ih a' hrec
        refine ⟨?_, c, hc, by rw [hsplit]; rfl⟩
        intro d hd
        rcases List.mem_cons.mp hd with rfl | hd'
        · exact Bool.eq_false_iff.mpr hx
        · exact hall d hd'

/-- Computation of `breakAtP` on a decomposed list. -/
theorem breakAtP_append (p : Char → Bool) (a b : List Char) (c : Char)
    (ha : ∀ x ∈ a, p x = false) (hc : p c = true) :
    breakAtP p (a ++ c :: b) = some (a, b) := by
  induction a with
  | nil => simp [breakAtP, hc]
  | cons x xs ih =>
    have hx : p x = false := ha x (by simp)
    rw [List.cons_append, breakAtP]
    simp only [hx, Bool.false_eq_true, if_false]
    rw [ih fun y hy => ha y (List.mem_cons_of_mem _ hy)]

/-- `breakAtP` succeeds whenever a matching character is present. -/
theorem breakAtP_isSome_of_mem (p : Char → Bool) (l : List Char) (c : Char)
    (hc : c ∈ l) (hpc : p c = true) : (breakAtP p l).isSome := by
  induction l with
  | nil => cases hc
  | cons x xs ih =>
    rw [breakAtP]
    by_cases hx : p x = true
    · simp [hx]
    · simp only [hx, Bool.false_eq_true, if_false]
      have hcx : c ∈ xs := by
        rcases List.mem_cons.mp hc with rfl | h
        · exact absurd hpc hx
        · exact h
      rcases hrec : breakAtP p xs with _ | ⟨a', b'⟩
      · rw [hrec] at ih
        exact absurd (ih hcx) (by simp)
      · simp

/-- `breakAtP` fails when no character matches. -/
theorem breakAtP_none (p : Char → Bool) (l : List Char)
    (h : ∀ c ∈ l, p c = false) : breakAtP p l = none := by
  induction l with
  | nil => rfl
  | cons x xs ih =>
    rw [breakAtP]
    simp only [h x (by simp), Bool.false_eq_true, if_false]
    rw [ih fun c hc => h c (List.mem_cons_of_mem _ hc)]

/-- Surgery: if a first-occurrence split lands inside the left half of an
append (witnessed by a member of the left half), the split decomposes the
left half. -/
theorem append_cons_surgery (u v x y : List Char) (c : Char)
    (hu : c ∈ u) (hx : ∀ a ∈ x, ¬ a = c) (heq : u ++ v = x ++ c :: y) :
    ∃ u2, u = x ++ c :: u2 ∧ y = u2 ++ v := by
  induction x generalizing u with
  | nil =>
    cases u with
    | nil => cases hu
    | cons c0 u' =>
      simp only [List.nil_append, List.cons_append, List.cons.injEq] at heq
      refine ⟨u', ?_, heq.2.symm⟩
      rw [heq.1]
      rfl
  | cons a x' ih =>
    cases u with
    | nil => cases hu
    | cons b u' =>
      simp only [List.cons_append, List.cons.injEq] at heq
      obtain ⟨rfl, heq'⟩ := heq
      have hcu' : c ∈ u' := by
        rcases List.mem_cons.mp hu with rfl | h
        · exact absurd rfl (hx c (by simp))
        · exact h
      obtain ⟨u2, h1, h2⟩ := ih u' hcu' (fun d hd => hx d (List.mem_cons_of_mem _ hd)) heq'
      exact ⟨u2, by rw [h1]; rfl, h2⟩

/-- `dropWhile` over an append that is stopped inside the right half. -/
theorem dropWhile_append_stopped (p : Char → Bool) (xs : List Char) (y : Char)
    (ys : List Char) (hy : p y = false) :
    (xs ++ y :: ys).dropWhile p = xs.dropWhile p ++ y :: ys := by
  rw [List.dropWhile_append]
  by_cases he : (xs.dropWhile p).isEmpty
  · rw [if_pos he]
    rw [List.isEmpty_iff] at he
    rw [he, List.dropWhile_cons_of_neg (by simp [hy])]
    rfl
  · rw [if_neg he]

/-- A non-matching member survives `dropWhile`. -/
theorem mem_dropWhile_of_mem (p : Char → Bool) (l : List Char) (c : Char)
    (hc : c ∈ l) (hpc : p c = false) : c ∈ l.dropWhile p := by
  conv at hc => rw [← List.takeWhile_append_dropWhile (p := p) (l := l)]
  rcases List.mem_append.mp hc with h | h
  · exact absurd (List.mem_takeWhile_imp h) (by simp [hpc])
  · exact h

/-- Boolean disjunction elimination helper. -/
theorem orb_iff {a b : Bool} : (a || b) = true ↔ a = true ∨ b = true := by
  simp

/-- Characterisation of a two-character substring occurrence. -/
theorem containsSub_two_iff (c1 c2 : Char) (l : List Char) :
    containsSub [c1, c2] l = true ↔ ∃ u v, l = u ++ c1 :: c2 :: v := by
  induction l with
  | nil =>
    simp only [containsSub, List.isPrefixOf]
    constructor
    · intro h; cases h
    · rintro ⟨u, v, h⟩; cases u <;> cases h
  | cons x xs ih =>
    rw [containsSub]
    constructor
    · intro h
      rcases orb_iff.mp h with h | h
      · obtain ⟨t, ht⟩ := List.isPrefixOf_iff_prefix.mp h
        exact ⟨[], t, by rw [← ht]; rfl⟩
      · obtain ⟨u, v, rfl⟩ := ih.mp h
        exact ⟨x :: u, v, rfl⟩
    · rintro ⟨u, v, huv⟩
      cases u with
      | nil =>
        apply orb_iff.mpr
        left
        apply List.isPrefixOf_iff_prefix.mpr
        refine ⟨v, ?_⟩
        simp only [List.nil_append, List.cons.injEq] at huv
        rw [huv.1, huv.2]
        rfl
      | cons a u' =>
        apply orb_iff.mpr
        right
        apply ih.mpr
        refine ⟨u', v, ?_⟩
        simp only [List.cons_append, List.cons.injEq] at huv
        exact huv.2

/-- A two-character substring occurrence in an append decomposes into an
occurrence in one half or a boundary occurrence. -/
theorem containsSub_two_append (c1 c2 : Char) (x y : List Char) :
    containsSub [c1, c2] (x ++ y) = true ↔
      containsSub [c1, c2] x = true ∨ containsSub [c1, c2] y = true ∨
      (x.getLast? = some c1 ∧ y.head? = some c2) := by
  constructor
  · intro h
    obtain ⟨u, v, huv⟩ := (containsSub_two_iff c1 c2 _).mp h
    rcases List.append_eq_append_iff.mp huv with ⟨a', _, ha2⟩ | ⟨c', hc1, hc2⟩
    · exact Or.inr (Or.inl ((containsSub_two_iff c1 c2 y).mpr ⟨a', v, ha2⟩))
    · rcases c' with _ | ⟨e1, c''⟩
      · simp only [List.nil_append] at hc2
        exact Or.inr (Or.inl ((containsSub_two_iff c1 c2 y).mpr ⟨[], v, hc2.symm⟩))
      · rcases c'' with _ | ⟨e2, c'''⟩
        · simp only [List.cons_append, List.nil_append, List.cons.injEq] at hc2
          obtain ⟨rfl, hy⟩ := hc2
          refine Or.inr (Or.inr ⟨?_, ?_⟩)
          · rw [hc1]
            simp
          · rw [← hy]
            rfl
        · simp only [List.cons_append, List.cons.injEq] at hc2
          obtain ⟨rfl, rfl, hv⟩ := hc2
          exact Or.inl ((containsSub_two_iff c1 c2 x).mpr ⟨u, c''', by rw [hc1]⟩)
  · intro h
    rcases h with h | h | ⟨h1, h2⟩
    · obtain ⟨u, v, rfl⟩ := (containsSub_two_iff c1 c2 x).mp h
      exact (containsSub_two_iff c1 c2 _).mpr ⟨u, v ++ y, by simp⟩
    · obtain ⟨u, v, rfl⟩ := (containsSub_two_iff c1 c2 y).mp h
      exact (containsSub_two_iff c1 c2 _).mpr ⟨x ++ u, v, by simp⟩
    · obtain ⟨x', rfl⟩ := List.getLast?_eq_some_iff.mp h1
      obtain ⟨y', rfl⟩ := List.head?_eq_some_iff.mp h2
      exact (containsSub_two_iff c1 c2 _).mpr ⟨x', y', by simp⟩

/-- The second character of a two-character substring occurrence is a
member. -/
theorem containsSub_two_mem (c1 c2 : Char) (l : List Char)
    (h : containsSub [c1, c2] l = true) : c2 ∈ l := by
  obtain ⟨u, v, rfl⟩ := (containsSub_two_iff c1 c2 l).mp h
  simp

/-- General characterisation of substring occurrence. -/
theorem containsSub_iff (pat l : List Char) :
    containsSub pat l = true ↔ ∃ u v, l = u ++ (pat ++ v) := by
  induction l with
  | nil =>
    rw [containsSub]
    constructor
    · intro h
      have hp : pat <+: ([] : List Char) := List.isPrefixOf_iff_prefix.mp h
      have hpe : pat = [] := List.prefix_nil.mp hp
      exact ⟨[], [], by rw [hpe]; rfl⟩
    · rintro ⟨u, v, h⟩
      rcases u with _ | _
      · rcases hpat : pat with _ | _
        · simp [List.isPrefixOf]
        · rw [hpat] at h
          cases h
      · cases h
  | cons x xs ih =>
    rw [containsSub]
    constructor
    · intro h
      rcases orb_iff.mp h with h | h
      · obtain ⟨t, ht⟩ := List.isPrefixOf_iff_prefix.mp h
        exact ⟨[], t, by rw [← ht]; rfl⟩
      · obtain ⟨u, v, rfl⟩ := ih.mp h
        exact ⟨x :: u, v, rfl⟩
    · rintro ⟨u, v, huv⟩
      cases u with
      | nil =>
        apply orb_iff.mpr
        left
        apply List.isPrefixOf_iff_prefix.mpr
        exact ⟨v, huv.symm⟩
      | cons a u' =>
        apply orb_iff.mpr
        right
        apply ih.mpr
        refine ⟨u', v, ?_⟩
        simp only [List.cons_append, List.cons.injEq] at huv
        exact huv.2

/-- Substring occurrence is monotone under infixes (contrapositive form:
a pattern absent from a list is absent from every infix). -/
theorem containsSub_false_of_infix (pat x l : List Char)
    (hinf : x <:+: l) (h : containsSub pat l = false) :
    containsSub pat x = false := by
  by_contra hc
  rw [Bool.not_eq_false] at hc
  obtain ⟨u, v, rfl⟩ := (containsSub_iff pat x).mp hc
  obtain ⟨s, t, rfl⟩ := hinf
  have : containsSub pat (s ++ (u ++ (pat ++ v)) ++ t) = true :=
    (containsSub_iff pat _).mpr ⟨s ++ u, v ++ t, by simp⟩
  rw [h] at this
  cases this

/-- Boolean conjunction-free disjunction falsity helper. -/
theorem orb_false_iff {a b : Bool} : (a || b) = false ↔ a = false ∧ b = false := by
  simp

/-- Characters of a join come from the separator or from a piece. -/
theorem mem_joinSep (sep : List Char) (pieces : List (List Char)) (c : Char)
    (h : c ∈ joinSep sep pieces) : c ∈ sep ∨ ∃ x ∈ pieces, c ∈ x := by
  induction pieces with
  | nil => cases h
  | cons a r ih =>
    cases r with
    | nil => exact Or.inr ⟨a, by simp, h⟩
    | cons b t =>
      rw [joinSep] at h
      rcases List.mem_append.mp h with h1 | h1
      · rcases List.mem_append.mp h1 with h2 | h2
        · exact Or.inr ⟨a, by simp, h2⟩
        · exact Or.inl h2
      · rcases ih h1 with h2 | ⟨x, hx, hcx⟩
        · exact Or.inl h2
        · exact Or.inr ⟨x, List.mem_cons_of_mem _ hx, hcx⟩

/-- A character of a piece is a character of the join. -/
theorem mem_joinSep_of_piece (sep : List Char) (pieces : List (List Char))
    (x : List Char) (c : Char) (hx : x ∈ pieces) (hc : c ∈ x) :
    c ∈ joinSep sep pieces := by
  induction pieces with
  | nil => cases hx
  | cons a r ih =>
    cases r with
    | nil =>
      have hxa : x = a := by simpa using hx
      subst hxa
      simpa [joinSep] using hc
    | cons b t =>
      rw [joinSep]
      rcases List.mem_cons.mp hx with rfl | hx'
      · exact List.mem_append.mpr (Or.inl (List.mem_append.mpr (Or.inl hc)))
      · exact List.mem_append.mpr (Or.inr (ih hx'))

/-- The fuelled splitter is fuel-independent above the list length. -/
theorem splitOnSepAux_fuel (s0 : Char) (sr : List Char) (f1 f2 : Nat) (l : List Char)
    (h1 : l.length ≤ f1) (h2 : l.length ≤ f2) :
    splitOnSepAux s0 sr f1 l = splitOnSepAux s0 sr f2 l := by
  induction f1 generalizing f2 l with
  | zero =>
    cases l with
    | nil => cases f2 <;> rfl
    | cons c ls => simp at h1
  | succ f1 ih =>
    cases l with
    | nil => cases f2 <;> rfl
    | cons c ls =>
      cases f2 with
      | zero => simp at h2
      | succ f2 =>
        rw [splitOnSepAux, splitOnSepAux]
        by_cases hpre : ((s0 :: sr).isPrefixOf (c :: ls)) = true
        · rw [if_pos hpre, if_pos hpre]
          have h1' : ls.length ≤ f1 := by simp at h1; omega
          have h2' : ls.length ≤ f2 := by simp at h2; omega
          rw [ih f2 ((c :: ls).drop (s0 :: sr).length)
            (by simp only [List.length_drop, List.length_cons]; omega)
            (by simp only [List.length_drop, List.length_cons]; omega)]
        · rw [if_neg (by simp [hpre]), if_neg (by simp [hpre])]
          rw [ih f2 ls (by simp at h1; omega) (by simp at h2; omega)]

/-- Joining the split pieces back recovers the original list. -/
theorem joinSep_splitOnSepAux (s0 : Char) (sr : List Char) (fuel : Nat) (l : List Char)
    (hf : l.length ≤ fuel) : joinSep (s0 :: sr) (splitOnSepAux s0 sr fuel l) = l := by
  induction fuel generalizing l with
  | zero =>
    cases l with
    | nil => rfl
    | cons c ls => simp at hf
  | succ fuel ih =>
    cases l with
    | nil => rfl
    | cons c ls =>
      rw [splitOnSepAux]
      by_cases hpre : ((s0 :: sr).isPrefixOf (c :: ls)) = true
      · rw [if_pos hpre]
        obtain ⟨t, ht⟩ := List.isPrefixOf_iff_prefix.mp hpre
        have hdrop : (c :: ls).drop (s0 :: sr).length = t := by
          rw [← ht]
          exact List.drop_left _ _
        rw [hdrop]
        rcases hsp : splitOnSepAux s0 sr fuel t with _ | ⟨A, R⟩
        · exact absurd hsp (splitOnSepAux_ne_nil _ _ _ _)
        · have hlt : t.length ≤ fuel := by
            have hlen := congrArg List.length ht
            simp only [List.length_append, List.length_cons] at hlen
            simp only [List.length_cons] at hf
            omega
          have hj := ih t hlt
          rw [hsp] at hj
          rw [joinSep, hj, ← ht]
          simp
      · rw [if_neg (by simp [hpre])]
        rcases hsp : splitOnSepAux s0 sr fuel ls with _ | ⟨A, R⟩
        · exact absurd hsp (splitOnSepAux_ne_nil _ _ _ _)
        · have hlt : ls.length ≤ fuel := by simp at hf; omega
          have hj := ih ls hlt
          rw [hsp] at hj
          cases R with
          | nil =>
            have hA : A = ls := by simpa [joinSep] using hj
            simp [joinSep, hA]
          | cons B R' =>
            rw [joinSep] at hj ⊢
            rw [show ((c :: A) ++ (s0 :: sr) ++ joinSep (s0 :: sr) (B :: R')) =
              c :: (A ++ (s0 :: sr) ++ joinSep (s0 :: sr) (B :: R')) from by simp]
            rw [hj]

/-- The head piece of a split is a prefix of the input. -/
theorem splitOnSepAux_head_prefix (s0 : Char) (sr : List Char) (fuel : Nat)
    (l A : List Char) (R : List (List Char))
    (h : splitOnSepAux s0 sr fuel l = A :: R) : A <+: l := by
  induction fuel generalizing l A R with
  | zero =>
    cases l with
    | nil =>
      injection h with h1 _
      rw [← h1]
    | cons c ls =>
      injection h with h1 _
      rw [← h1]
  | succ fuel ih =>
    cases l with
    | nil =>
      injection h with h1 _
      rw [← h1]
    | cons c ls =>
      rw [splitOnSepAux] at h
      by_cases hpre : ((s0 :: sr).isPrefixOf (c :: ls)) = true
      · rw [if_pos hpre] at h
        injection h with h1 _
        rw [← h1]
        exact List.nil_prefix
      · rw [if_neg (by simp [hpre])] at h
        rcases hsp : splitOnSepAux s0 sr fuel ls with _ | ⟨A', R'⟩
        · rw [hsp] at h
          injection h with h1 _
          rw [← h1]
          exact List.cons_prefix_cons.mpr ⟨rfl, List.nil_prefix⟩
        · rw [hsp] at h
          injection h with h1 _
          rw [← h1]
          exact List.cons_prefix_cons.mpr ⟨rfl, ih ls A' R' hsp⟩

/-- No split piece contains the separator as a substring. -/
theorem splitOnSepAux_no_sub (s0 : Char) (sr : List Char) (fuel : Nat) (l : List Char)
    (hf : l.length ≤ fuel) :
    ∀ x ∈ splitOnSepAux s0 sr fuel l, containsSub (s0 :: sr) x = false := by
  induction fuel generalizing l with
  | zero =>
    cases l with
    | nil =>
      intro x hx
      have hxe : x = [] := by simpa [splitOnSepAux] using hx
      rw [hxe]
      simp [containsSub, List.isPrefixOf]
    | cons c ls => simp at hf
  | succ fuel ih =>
    cases l with
    | nil =>
      intro x hx
      have hxe : x = [] := by simpa [splitOnSepAux] using hx
      rw [hxe]
      simp [containsSub, List.isPrefixOf]
    | cons c ls =>
      rw [splitOnSepAux]
      by_cases hpre : ((s0 :: sr).isPrefixOf (c :: ls)) = true
      · rw [if_pos hpre]
        intro x hx
        rcases List.mem_cons.mp hx with rfl | hx'
        · simp [containsSub, List.isPrefixOf]
        · have hflen : ((c :: ls).drop (s0 :: sr).length).length ≤ fuel := by
            simp only [List.length_drop, List.length_cons]
            simp only [List.length_cons] at hf
            omega
          exact ih _ hflen x hx'
      · rw [if_neg (by simp [hpre])]
        rcases hsp : splitOnSepAux s0 sr fuel ls with _ | ⟨A, R⟩
        · exact absurd hsp (splitOnSepAux_ne_nil _ _ _ _)
        · intro x hx
          have hls : ls.length ≤ fuel := by simp at hf; omega
          rcases List.mem_cons.mp hx with rfl | hx'
          · have hA : containsSub (s0 :: sr) A = false :=
              ih ls hls A (by rw [hsp]; simp)
            have hApre : A <+: ls := splitOnSepAux_head_prefix _ _ _ _ _ _ hsp
            have hnp : ((s0 :: sr).isPrefixOf (c :: A)) = false := by
              by_contra hcc
              rw [Bool.not_eq_false] at hcc
              have hpf1 : (s0 :: sr) <+: c :: A := List.isPrefixOf_iff_prefix.mp hcc
              have hpf2 : (c :: A) <+: (c :: ls) :=
                List.cons_prefix_cons.mpr ⟨rfl, hApre⟩
              exact hpre (List.isPrefixOf_iff_prefix.mpr (hpf1.trans hpf2))
            rw [containsSub, hnp, hA]
            rfl
          · exact ih ls hls x (by rw [hsp]; exact List.mem_cons_of_mem _ hx')

/-- A list without the separator splits into a single piece. -/
theorem splitOnSepAux_eq_single (s0 : Char) (sr : List Char) (fuel : Nat)
    (l : List Char) (hf : l.length ≤ fuel)
    (h : containsSub (s0 :: sr) l = false) :
    splitOnSepAux s0 sr fuel l = [l] := by
  induction fuel generalizing l with
  | zero =>
    cases l with
    | nil => rfl
    | cons c ls => simp at hf
  | succ fuel ih =>
    cases l with
    | nil => rfl
    | cons c ls =>
      rw [containsSub] at h
      obtain ⟨hpre, hrest⟩ := orb_false_iff.mp h
      rw [splitOnSepAux, if_neg (by simp [hpre])]
      rw [ih ls (by simp at hf; omega) hrest]

/-- Splitting `x ++ ", " ++ y` when `x` is free of `", "` peels off `x`. -/
theorem splitOnSep_cs_append (x y : List Char)
    (hx : containsSub [',', ' '] x = false) :
    splitOnSep [',', ' '] (x ++ ',' :: ' ' :: y) = x :: splitOnSep [',', ' '] y := by
  induction x with
  | nil =>
    show splitOnSepAux ',' [' '] ((',' :: ' ' :: y).length) (',' :: ' ' :: y) = _
    rw [show (',' :: ' ' :: y).length = y.length + 1 + 1 from by simp]
    rw [splitOnSepAux]
    rw [if_pos (by simp [List.isPrefixOf])]
    show ([] : List Char) :: splitOnSepAux ',' [' '] (y.length + 1) y = _
    rw [splitOnSepAux_fuel ',' [' '] (y.length + 1) y.length y (by omega) le_rfl]
    rfl
  | cons a xs ih =>
    have hxs : containsSub [',', ' '] xs = false := by
      rw [containsSub] at hx
      exact (orb_false_iff.mp hx).2
    show splitOnSepAux ',' [' '] ((a :: (xs ++ ',' :: ' ' :: y)).length)
        (a :: (xs ++ ',' :: ' ' :: y)) = _
    rw [show (a :: (xs ++ ',' :: ' ' :: y)).length = (xs ++ ',' :: ' ' :: y).length + 1
      from by simp]
    rw [splitOnSepAux]
    have hpre : (([',', ' ']).isPrefixOf (a :: (xs ++ ',' :: ' ' :: y))) = false := by
      cases xs with
      | nil => simp [List.isPrefixOf]
      | cons b xs' =>
        by_contra hcc
        rw [Bool.not_eq_false] at hcc
        obtain ⟨t, ht⟩ := List.isPrefixOf_iff_prefix.mp hcc
        simp only [List.cons_append, List.cons.injEq] at ht
        obtain ⟨ha, hb, _⟩ := ht
        have : containsSub [',', ' '] (a :: b :: xs') = true := by
          rw [containsSub]
          apply orb_iff.mpr
          left
          rw [← ha, ← hb]
          simp [List.isPrefixOf]
        rw [hx] at this
        cases this
    rw [if_neg (by simp [hpre])]
    have hstep := ih hxs
    rw [show splitOnSep [',', ' '] (xs ++ ',' :: ' ' :: y) =
      splitOnSepAux ',' [' '] ((xs ++ ',' :: ' ' :: y).length) (xs ++ ',' :: ' ' :: y)
      from rfl] at hstep
    rw [hstep]

/-- Splitting the join of `", "`-free pieces recovers the pieces. -/
theorem splitOnSep_joinSep_cs (pieces : List (List Char)) (hne : pieces ≠ [])
    (hp : ∀ x ∈ pieces, containsSub [',', ' '] x = false) :
    splitOnSep [',', ' '] (joinSep [',', ' '] pieces) = pieces := by
  induction pieces with
  | nil => exact absurd rfl hne
  | cons x rest ih =>
    cases rest with
    | nil =>
      show splitOnSepAux ',' [' '] _ _ = _
      exact splitOnSepAux_eq_single ',' [' '] _ x le_rfl (hp x (by simp))
    | cons yy rest' =>
      rw [joinSep]
      rw [show x ++ [',', ' '] ++ joinSep [',', ' '] (yy :: rest') =
        x ++ ',' :: ' ' :: joinSep [',', ' '] (yy :: rest') from by simp]
      rw [splitOnSep_cs_append _ _ (hp x (by simp))]
      rw [ih (by simp) (fun z hz => hp z (List.mem_cons_of_mem _ hz))]

/-- A run of `takeWhile (· == '*')` is a replicate of `'*'`. -/
theorem takeWhile_star_eq_replicate (l : List Char) :
    l.takeWhile (· == '*') = List.replicate (l.takeWhile (· == '*')).length '*' := by
  apply List.eq_replicate_iff.mpr
  refine ⟨rfl, fun b hb => ?_⟩
  have := List.mem_takeWhile_imp hb
  simpa using this

/-- `takeWhile`/`dropWhile` on a star run followed by a non-star head. -/
theorem takeWhile_star_replicate (p : Nat) (rest : List Char)
    (hrest : rest.head? ≠ some '*') :
    (List.replicate p '*' ++ rest).takeWhile (· == '*') = List.replicate p '*' ∧
    (List.replicate p '*' ++ rest).dropWhile (· == '*') = rest := by
  induction p with
  | zero =>
    simp only [List.replicate, List.nil_append]
    cases rest with
    | nil => exact ⟨rfl, rfl⟩
    | cons c cs =>
      have hc : (c == '*') = false := by
        cases hh : c == '*'
        · rfl
        · exact absurd (by rw [show c = '*' from by simpa using hh]; rfl) hrest
      rw [List.takeWhile_cons, List.dropWhile_cons]
      simp [hc]
  | succ p ih =>
    simp only [List.replicate_succ, List.cons_append]
    rw [List.takeWhile_cons, List.dropWhile_cons]
    have hstar : ('*' == '*') = true := by decide
    rw [hstar]
    simp only [if_true]
    exact ⟨by rw [ih.1], ih.2⟩

/-- The head of a `dropWhile` result falsifies the predicate. -/
theorem dropWhile_head_false (p : Char → Bool) (l : List Char) (c : Char)
    (r : List Char) (h : l.dropWhile p = c :: r) : p c = false := by
  induction l with
  | nil => cases h
  | cons x xs ih =>
    rw [List.dropWhile_cons] at h
    by_cases hx : p x = true
    · rw [if_pos hx] at h
      exact ih h
    · rw [if_neg hx] at h
      injection h with h1 _
      rw [← h1]
      exact Bool.eq_false_iff.mpr hx

/-- A nonempty `takeWhile` result starts with the head of the input. -/
theorem takeWhile_head (p : Char → Bool) (l : List Char) (c : Char)
    (r : List Char) (h : l.takeWhile p = c :: r) : l.head? = some c := by
  cases l with
  | nil => cases h
  | cons x xs =>
    rw [List.takeWhile_cons] at h
    by_cases hx : p x = true
    · rw [if_pos hx] at h
      injection h with h1 _
      rw [h1]
      rfl
    · rw [if_neg hx] at h
      cases h

/-- `takeWhile` keeps a list whose members all satisfy the predicate. -/
theorem takeWhile_all (p : Char → Bool) (l : List Char)
    (h : ∀ c ∈ l, p c = true) : l.takeWhile p = l := by
  induction l with
  | nil => rfl
  | cons x xs ih =>
    rw [List.takeWhile_cons, if_pos (h x (by simp))]
    rw [ih (fun c hc => h c (List.mem_cons_of_mem _ hc))]

/-- Members of a `takeWhile` result are members of the input. -/
theorem mem_of_mem_takeWhile (p : Char → Bool) (l : List Char) (c : Char)
    (h : c ∈ l.takeWhile p) : c ∈ l :=
  (List.takeWhile_sublist p).subset h

/-- Members of a `dropWhile` result are members of the input. -/
theorem mem_of_mem_dropWhile (p : Char → Bool) (l : List Char) (c : Char)
    (h : c ∈ l.dropWhile p) : c ∈ l :=
  (List.dropWhile_sublist p).subset h

/-- The empty list vacuously satisfies the whitespace/parenthesis invariant. -/
theorem WsParen_nil : WsParen [] := by
  intro u w v heq
  simp at heq

/-- The invariant restricts to any infix. -/
theorem WsParen_of_infix {x l : List Char} (h : WsParen l) (hx : x <:+: l) :
    WsParen x := by
  obtain ⟨s, t, rfl⟩ := hx
  rw [List.append_assoc] at h
  exact (WsParen.append_right h).append_left

/-- A join of a nonempty list headed by a nonempty piece is nonempty. -/
theorem joinSep_ne_nil (sep : List Char) (x : List Char) (r : List (List Char))
    (hx : x ≠ []) : joinSep sep (x :: r) ≠ [] := by
  cases r with
  | nil => simpa [joinSep] using hx
  | cons b t =>
    rw [joinSep]
    intro hcc
    rcases List.append_eq_nil.mp hcc with ⟨h1, _⟩
    exact hx (List.append_eq_nil.mp h1).1

/-- Each piece occurs as an infix of the join. -/
theorem piece_infix_joinSep (sep : List Char) (pieces : List (List Char))
    (x : List Char) (hx : x ∈ pieces) : x <:+: joinSep sep pieces := by
  induction pieces with
  | nil => cases hx
  | cons a r ih =>
    rcases List.mem_cons.mp hx with rfl | hx'
    · cases r with
      | nil => exact List.infix_rfl
      | cons b t =>
        rw [joinSep]
        exact ⟨[], sep ++ joinSep sep (b :: t), by simp⟩
    · have hr : r ≠ [] := by intro hcc; rw [hcc] at hx'; cases hx'
      cases r with
      | nil => cases hx'
      | cons b t =>
        rw [joinSep]
        obtain ⟨s1, t1, h1⟩ := ih hx'
        exact ⟨a ++ sep ++ s1, t1, by rw [← h1]; simp⟩

/-- `mapOptionVar` success is pointwise success. -/
theorem mapOptionVar_some_forall₂ (f : List Char → Option Variable) :
    ∀ (l : List (List Char)) (l' : List Variable), mapOptionVar f l = some l' →
    List.Forall₂ (fun a b => f a = some b) l l' := by
  intro l
  induction l with
  | nil =>
    intro l' h
    injection h with h1
    rw [← h1]
    exact List.Forall₂.nil
  | cons a r ih =>
    intro l' h
    rw [mapOptionVar] at h
    rcases ha : f a with _ | b
    · rw [ha] at h
      cases h
    · rw [ha] at h
      rcases hr : mapOptionVar f r with _ | bs
      · rw [hr] at h
        cases h
      · rw [hr] at h
        injection h with h1
        rw [← h1]
        exact List.Forall₂.cons ha (ih bs hr)

/-- Pointwise success gives `mapOptionVar` success. -/
theorem forall₂_mapOptionVar_some (f : List Char → Option Variable) :
    ∀ (l : List (List Char)) (l' : List Variable),
    List.Forall₂ (fun a b => f a = some b) l l' → mapOptionVar f l = some l' := by
  intro l l' h
  induction h with
  | nil => rfl
  | cons hab hrest ih =>
    rw [mapOptionVar, hab, ih]

/-- Right-to-left membership transfer along a `Forall₂`. -/
theorem forall₂_mem_right {α β : Type} {R : α → β → Prop}
    {ps : List α} {vs : List β}
    (h : List.Forall₂ R ps vs) {v : β} (hv : v ∈ vs) :
    ∃ P ∈ ps, R P v := by
  induction h with
  | nil => cases hv
  | cons hab hrest ih =>
    rcases List.mem_cons.mp hv with rfl | hv'
    · exact ⟨_, by simp, hab⟩
    · obtain ⟨P, hP, hR⟩ := ih hv'
      exact ⟨P, List.mem_cons_of_mem _ hP, hR⟩

/-- A whitespace head behind a newline-free prefix makes the argument regex
tail succeed. -/
theorem varTry_isSome_of_ws (s : List Char) (j : Nat) (w : Char) (r : List Char)
    (hd : s.drop j = w :: r) (hw : pyIsWs w = true)
    (hnl : ((s.take j).contains '\n') = false) : (varTry s j).isSome := by
  simp only [varTry, hd]
  rw [if_pos (by rw [hw, hnl]; rfl)]
  rfl

/-- A non-whitespace (or absent) head makes the argument regex tail fail. -/
theorem varTry_none_of_not_ws (s : List Char) (j : Nat)
    (h : ∀ w r, s.drop j = w :: r → pyIsWs w = false) : varTry s j = none := by
  rcases hd : s.drop j with _ | ⟨w, r⟩
  · simp only [varTry, hd]
  · simp only [varTry, hd]
    rw [if_neg (by rw [h w r hd]; simp)]

/-- A newline in the prefix makes the argument regex tail fail: the greedy
`(.*)` of the non-`DOTALL` regex cannot cross it. -/
theorem varTry_none_of_nl (s : List Char) (j : Nat)
    (h : ((s.take j).contains '\n') = true) : varTry s j = none := by
  rcases hd : s.drop j with _ | ⟨w, r⟩
  · simp only [varTry, hd]
  · simp only [varTry, hd]
    rw [if_neg (by rw [h]; simp)]

/-- Computing the argument regex tail at the split position. -/
theorem varTry_eq_some (ty : List Char) (w : Char) (hw : pyIsWs w = true) (pd : Nat)
    (rest : List Char) (hhd : rest.head? ≠ some '*')
    (hnl : (ty.contains '\n') = false) :
    varTry (ty ++ w :: (List.replicate pd '*' ++ rest)) ty.length =
      some (ty, pd, rest.takeWhile (· != ';')) := by
  have hdrop : (ty ++ w :: (List.replicate pd '*' ++ rest)).drop ty.length =
      w :: (List.replicate pd '*' ++ rest) := List.drop_left _ _
  have htake : (ty ++ w :: (List.replicate pd '*' ++ rest)).take ty.length = ty :=
    List.take_left _ _
  simp only [varTry, hdrop, htake]
  rw [if_pos (by rw [hw, hnl]; rfl)]
  rw [(takeWhile_star_replicate pd rest hhd).1, (takeWhile_star_replicate pd rest hhd).2]
  rw [List.length_replicate]

/-- The greedy split search, solved at a known success position with no
success above it. -/
theorem varSearch_of_succ (s : List Char) (i : Nat) (g : List Char × Nat × List Char) :
    ∀ n, i < n → varTry s i = some g →
    (∀ j, i < j → j < n → varTry s j = none) → varSearch s n = some g := by
  intro n
  induction n with
  | zero => omega
  | succ n ih =>
    intro hin hs hmax
    rw [varSearch]
    by_cases hi : i = n
    · rw [← hi, hs]
    · rw [hmax n (by omega) (by omega)]
      exact ih (by omega) hs (fun j h1 h2 => hmax j h1 (by omega))

/-- Inversion of the greedy split search: a success position with maximality. -/
theorem varSearch_some_elim (s : List Char) (g : List Char × Nat × List Char) :
    ∀ n, varSearch s n = some g →
    ∃ i, i < n ∧ varTry s i = some g ∧ ∀ j, i < j → j < n → varTry s j = none := by
  intro n
  induction n with
  | zero => intro h; cases h
  | succ n ih =>
    intro h
    rw [varSearch] at h
    rcases ht : varTry s n with _ | g'
    · rw [ht] at h
      obtain ⟨i, hi, hsucc, hmax⟩ := ih h
      refine ⟨i, by omega, hsucc, fun j h1 h2 => ?_⟩
      by_cases hj : j = n
      · rw [hj]; exact ht
      · exact hmax j h1 (by omega)
    · rw [ht] at h
      injection h with h1
      exact ⟨n, by omega, by rw [ht, h1], fun j h1 h2 => by omega⟩

/-- A whitespace-free string defeats the argument regex entirely. -/
theorem varSearch_none_of_no_ws (s : List Char)
    (h : ∀ c ∈ s, pyIsWs c = false) : ∀ n, varSearch s n = none := by
  intro n
  induction n with
  | zero => rfl
  | succ n ih =>
    rw [varSearch]
    rw [varTry_none_of_not_ws s n (fun w r hd => h w (by
      rw [← List.take_append_drop n s, hd]
      exact List.mem_append.mpr (Or.inr (List.mem_cons_self _ _))))]
    exact ih

/-- Structure extraction from a successful argument regex tail: the prefix
group additionally holds no newline. -/
theorem varTry_some_structure (s : List Char) (i : Nat) (ty : List Char) (pd : Nat)
    (nmv : List Char) (h : varTry s i = some (ty, pd, nmv)) :
    ty = s.take i ∧ i < s.length ∧ ((s.take i).contains '\n') = false ∧
      ∃ w rest, pyIsWs w = true ∧
      s.drop i = w :: (List.replicate pd '*' ++ rest) ∧
      nmv = rest.takeWhile (· != ';') ∧ rest.head? ≠ some '*' := by
  rcases hd : s.drop i with _ | ⟨w, r⟩
  · simp only [varTry, hd] at h
    exact Option.noConfusion h
  · simp only [varTry, hd] at h
    by_cases hcond : (pyIsWs w && !((s.take i).contains '\n')) = true
    · rw [if_pos hcond] at h
      rw [Bool.and_eq_true] at hcond
      obtain ⟨hw, hnl'⟩ := hcond
      have hnl : ((s.take i).contains '\n') = false := by
        cases hq : (s.take i).contains '\n'
        · rfl
        · rw [hq] at hnl'
          cases hnl'
      injection h with h1
      have hty : ty = s.take i := congrArg Prod.fst h1.symm
      have hpd : pd = (r.takeWhile (· == '*')).length :=
        congrArg (Prod.fst ∘ Prod.snd) h1.symm
      have hnmv : nmv = (r.dropWhile (· == '*')).takeWhile (· != ';') :=
        congrArg (Prod.snd ∘ Prod.snd) h1.symm
      have hlen : i < s.length := by
        by_contra hcc
        rw [List.drop_eq_nil_of_le (by omega)] at hd
        cases hd
      refine ⟨hty, hlen, hnl, w, r.dropWhile (· == '*'), hw, ?_, hnmv, ?_⟩
      · have := List.takeWhile_append_dropWhile (p := (· == '*')) (l := r)
        conv_lhs => rw [← this]
        rw [takeWhile_star_eq_replicate, ← hpd]
      · rcases hrest : r.dropWhile (· == '*') with _ | ⟨c, cs⟩
        · intro hcc; cases hcc
        · have := dropWhile_head_false _ _ _ _ hrest
          intro hcc
          injection hcc with hcc1
          rw [hcc1] at this
          cases this
    · rw [if_neg hcond] at h
      cases h

/-- Full structure of a successful greedy argument regex: the split comes
with a newline-free prefix group (the non-`DOTALL` `(.*)` stops at the first
newline, where the engine can still match `\s` against the newline itself). -/
theorem varSearch_full_structure (X ty : List Char) (pd : Nat) (nmv : List Char)
    (h : varSearch X X.length = some (ty, pd, nmv)) :
    ∃ w rest, pyIsWs w = true ∧
      X = ty ++ w :: (List.replicate pd '*' ++ rest) ∧
      nmv = rest.takeWhile (· != ';') ∧
      rest.head? ≠ some '*' ∧
      (ty.contains '\n') = false := by
  obtain ⟨i, hin, hsucc, _⟩ := varSearch_some_elim X _ X.length h
  obtain ⟨hty, hlen, hnl, w, rest, hw, hdrop, hnmv, hhd⟩ :=
    varTry_some_structure X i ty pd nmv hsucc
  have hX : X = ty ++ w :: (List.replicate pd '*' ++ rest) := by
    conv_lhs => rw [← List.take_append_drop i X]
    rw [hdrop, ← hty]
  refine ⟨w, rest, hw, hX, hnmv, hhd, ?_⟩
  rw [hty]
  exact hnl

/-- Structure of a successful `Variable.parse` regex match: the groups come
from the greedy split of either the whole piece or the piece without its
`const ` prefix. -/
theorem varMatch_some_structure (P ty : List Char) (pd : Nat) (nmv : List Char)
    (h : varMatch P = some (ty, pd, nmv)) :
    ∃ X w rest, pyIsWs w = true ∧
      (X = P ∨ P = "const ".toList ++ X) ∧
      X = ty ++ w :: (List.replicate pd '*' ++ rest) ∧
      nmv = rest.takeWhile (· != ';') ∧
      rest.head? ≠ some '*' ∧
      (ty.contains '\n') = false := by
  rw [varMatch] at h
  by_cases hcp : (("const ".toList).isPrefixOf P) = true
  · rw [if_pos hcp] at h
    rcases hv : varSearch (P.drop 6) (P.length - 6) with _ | g
    · rw [hv] at h
      obtain ⟨w, rest, hw, hX, hnmv, hhd, hws⟩ := varSearch_full_structure P ty pd nmv h
      exact ⟨P, w, rest, hw, Or.inl rfl, hX, hnmv, hhd, hws⟩
    · rw [hv] at h
      injection h with h1
      rw [h1] at hv
      have hlen6 : P.length - 6 = (P.drop 6).length := (List.length_drop _ _).symm
      rw [hlen6] at hv
      obtain ⟨w, rest, hw, hX, hnmv, hhd, hws⟩ :=
        varSearch_full_structure (P.drop 6) ty pd nmv hv
      obtain ⟨t, ht⟩ := List.isPrefixOf_iff_prefix.mp hcp
      have hdt : P.drop 6 = t := by
        rw [← ht]
        exact List.drop_left' (by decide)
      refine ⟨P.drop 6, w, rest, hw, Or.inr ?_, hX, hnmv, hhd, hws⟩
      rw [hdt, ht]
  · rw [if_neg hcp] at h
    obtain ⟨w, rest, hw, hX, hnmv, hhd, hws⟩ := varSearch_full_structure P ty pd nmv h
    exact ⟨P, w, rest, hw, Or.inl rfl, hX, hnmv, hhd, hws⟩

/-- Dropping past a left factor drops inside the right factor. -/
theorem drop_append_len (x y : List Char) (m : Nat) :
    (x ++ y).drop (m + x.length) = y.drop m := by
  induction x with
  | nil => simp
  | cons a xs ih =>
    simp only [List.cons_append, List.length_cons]
    rw [show m + (xs.length + 1) = (m + xs.length) + 1 from by omega]
    rw [List.drop_succ_cons]
    exact ih

/-- Uniform shape of `Variable.__str__`: type, a space, the star run, then
the name. -/
theorem varStr_shape (v : Variable) :
    varStr v = v.type ++ ' ' :: (List.replicate v.ptr_depth '*' ++ v.name) := by
  by_cases h : v.ptr_depth = 0
  · simp [varStr, typeStr, h]
  · simp [varStr, typeStr, h]

/-- If `const ` prefixes `ty ++ ' ' :: tail` but not `ty`, then `ty` is the
bare word `const`. -/
theorem const_prefix_cases (ty tail : List Char)
    (hcp : (("const ".toList).isPrefixOf (ty ++ ' ' :: tail)) = true)
    (hty : (("const ".toList).isPrefixOf ty) = false) :
    ty = "const".toList := by
  obtain ⟨t, ht⟩ := List.isPrefixOf_iff_prefix.mp hcp
  rcases List.append_eq_append_iff.mp ht with ⟨a, ha1, ha2⟩ | ⟨c', hc1, hc2⟩
  · exact absurd (List.isPrefixOf_iff_prefix.mpr ⟨a, ha1.symm⟩) (by rw [hty]; exact Bool.false_ne_true)
  · cases c' with
    | nil =>
      rw [List.append_nil] at hc1
      exact absurd (List.isPrefixOf_iff_prefix.mpr
          (by rw [← hc1] : ("const ".toList) <+: ty))
        (by rw [hty]; exact Bool.false_ne_true)
    | cons d c'' =>
      have hc2' : ' ' :: tail = d :: (c'' ++ t) := hc2
      injection hc2' with hd _
      rw [← hd] at hc1
      have hdrop : ("const ".toList).drop ty.length = ' ' :: c'' := by
        rw [hc1]
        exact List.drop_left _ _
      have hlen : ty.length + (1 + c''.length) = 6 := by
        have := congrArg List.length hc1
        simp at this
        omega
      have hget : ("const ".toList).drop ty.length = ' ' :: c'' := hdrop
      rcases show ty.length = 0 ∨ ty.length = 1 ∨ ty.length = 2 ∨ ty.length = 3 ∨
          ty.length = 4 ∨ ty.length = 5 from by omega with h5 | h5 | h5 | h5 | h5 | h5 <;>
        rw [h5] at hget
      · injection hget with hh _
        exact absurd hh (by decide)
      · injection hget with hh _
        exact absurd hh (by decide)
      · injection hget with hh _
        exact absurd hh (by decide)
      · injection hget with hh _
        exact absurd hh (by decide)
      · injection hget with hh _
        exact absurd hh (by decide)
      · have hpre : ty <+: "const ".toList := ⟨' ' :: c'', hc1.symm⟩
        have := List.prefix_iff_eq_take.mp hpre
        rw [h5] at this
        rw [this]
        decide

/-- Round trip of a single argument piece: re-parsing the rendered variable
recovers the variable, provided its type is not `const `-qualified, does
not end in a comma, and its name holds no whitespace (a piece with a newline
makes the non-`DOTALL` regex split there, leaving whitespace in the name,
which the whitespace-joined rendering would re-split differently); the
rendering is also separator-free, satisfies the whitespace/parenthesis
invariant, and only uses characters of the original piece plus space and
star. -/
theorem piece_roundtrip (P : List Char) (das : Int) (v : Variable)
    (hp : pyVarParse P das = some v)
    (hwsP : WsParen P)
    (hcs : containsSub [',', ' '] P = false)
    (hconst : (("const ".toList).isPrefixOf v.type) = false)
    (hcomma : v.type.getLast? ≠ some ',')
    (hnamews : ∀ c ∈ v.name, pyIsWs c = false) :
    pyVarParse (varStr v) das = some v ∧
    containsSub [',', ' '] (varStr v) = false ∧
    WsParen (varStr v) ∧
    (∀ c ∈ varStr v, c ∈ P ∨ c = ' ' ∨ c = '*') ∧
    varStr v ≠ [] := by
  rw [pyVarParse] at hp
  rcases hvm : varMatch P with _ | g
  · rw [hvm] at hp
    exact Option.noConfusion hp
  · rw [hvm] at hp
    obtain ⟨ty, pd, nmv⟩ := g
    rw [Option.map_some'] at hp
    injection hp with hp1
    subst hp1
    obtain ⟨X, w, rest, hw, hcase, hX, hnmv, hhd, htynl⟩ :=
      varMatch_some_structure P ty pd nmv hvm
    simp only at hconst hcomma hnamews
    -- the window X sits inside P
    have hXinf : X <:+: P := by
      rcases hcase with rfl | hcaseC
      · exact List.infix_rfl
      · exact ⟨"const ".toList, [], by rw [hcaseC]; simp⟩
    have hwsX : WsParen X := WsParen_of_infix hwsP hXinf
    have hmemXP : ∀ c ∈ X, c ∈ P := fun c hc => hXinf.sublist.subset hc
    have htypfx : ty <+: X := ⟨_, hX.symm⟩
    have hwty : WsParen ty := WsParen_of_infix hwsX htypfx.isInfix
    have hcsty : containsSub [',', ' '] ty = false :=
      containsSub_false_of_infix _ _ _ (htypfx.isInfix.trans hXinf) hcs
    have hmemtyP : ∀ c ∈ ty, c ∈ P := fun c hc => hmemXP c (htypfx.sublist.subset hc)
    have hmemrestX : ∀ c ∈ rest, c ∈ X := by
      intro c hc
      rw [hX]
      simp [hc]
    have hnmvrest : ∀ c ∈ nmv, c ∈ rest := by
      intro c hc
      rw [hnmv] at hc
      exact mem_of_mem_takeWhile _ _ _ hc
    have hnmv_ws : ∀ c ∈ nmv, pyIsWs c = false := fun c hc => hnamews c hc
    have hnmv_semi : ∀ c ∈ nmv, (c != ';') = true := by
      intro c hc
      rw [hnmv] at hc
      have h' := List.mem_takeWhile_imp hc
      exact h'
    have hnmv_hd : nmv.head? ≠ some '*' := by
      rcases hv : nmv with _ | ⟨c, t⟩
      · intro hcc; cases hcc
      · rw [hv] at hnmv
        have := takeWhile_head _ _ _ _ hnmv.symm
        intro hcc
        injection hcc with hcc1
        rw [hcc1] at this
        exact hhd this
    have htail_ws : ∀ c ∈ List.replicate pd '*' ++ nmv, pyIsWs c = false := by
      intro c hc
      rcases List.mem_append.mp hc with hc1 | hc2
      · rw [List.eq_of_mem_replicate hc1]
        decide
      · exact hnmv_ws c hc2
    have hnoparen : '(' ∉ List.replicate pd '*' ++ nmv := by
      intro hcc
      rcases List.mem_append.mp hcc with hc1 | hc2
      · exact absurd (List.eq_of_mem_replicate hc1) (by decide)
      · exact hwsX ty w (List.replicate pd '*' ++ rest) hX hw
          (List.mem_append.mpr (Or.inr (hnmvrest _ hc2)))
    -- shape of the rendering
    have hQ : varStr ⟨ty, nmv, pd, if pd ≠ 0 then das else -1, none⟩ =
        ty ++ ' ' :: (List.replicate pd '*' ++ nmv) := varStr_shape _
    rw [hQ]
    -- the re-parse of the rendered piece
    have htwnmv : nmv.takeWhile (· != ';') = nmv := takeWhile_all _ _ hnmv_semi
    have hsuccQ : varTry (ty ++ ' ' :: (List.replicate pd '*' ++ nmv)) ty.length =
        some (ty, pd, nmv) := by
      rw [varTry_eq_some ty ' ' (by decide) pd nmv hnmv_hd htynl, htwnmv]
    have hmaxQ : ∀ j, ty.length < j →
        j < (ty ++ ' ' :: (List.replicate pd '*' ++ nmv)).length →
        varTry (ty ++ ' ' :: (List.replicate pd '*' ++ nmv)) j = none := by
      intro j hj1 hj2
      apply varTry_none_of_not_ws
      intro w' r' hd
      have hj3 : j = (j - ty.length - 1) + (ty ++ [' ']).length := by
        simp only [List.length_append, List.length_cons, List.length_nil]
        omega
      rw [hj3, show ty ++ ' ' :: (List.replicate pd '*' ++ nmv) =
        (ty ++ [' ']) ++ (List.replicate pd '*' ++ nmv) from by simp,
        drop_append_len] at hd
      have hw'mem : w' ∈ List.replicate pd '*' ++ nmv :=
        List.mem_of_mem_drop (hd ▸ List.mem_cons_self _ _)
      exact htail_ws w' hw'mem
    have hsearchQ : varSearch (ty ++ ' ' :: (List.replicate pd '*' ++ nmv))
        (ty ++ ' ' :: (List.replicate pd '*' ++ nmv)).length = some (ty, pd, nmv) := by
      apply varSearch_of_succ _ ty.length _ _ _ hsuccQ hmaxQ
      simp
    have hmatchQ : varMatch (ty ++ ' ' :: (List.replicate pd '*' ++ nmv)) =
        some (ty, pd, nmv) := by
      rw [varMatch]
      by_cases hcpQ : (("const ".toList).isPrefixOf
          (ty ++ ' ' :: (List.replicate pd '*' ++ nmv))) = true
      · rw [if_pos hcpQ]
        have hty5 : ty = "const".toList := const_prefix_cases ty _ hcpQ hconst
        have hdrop6 : (ty ++ ' ' :: (List.replicate pd '*' ++ nmv)).drop 6 =
            List.replicate pd '*' ++ nmv := by
          rw [show ty ++ ' ' :: (List.replicate pd '*' ++ nmv) =
            (ty ++ [' ']) ++ (List.replicate pd '*' ++ nmv) from by simp]
          exact List.drop_left' (by rw [hty5]; rfl)
        rw [hdrop6, varSearch_none_of_no_ws _ htail_ws]
        exact hsearchQ
      · rw [if_neg hcpQ]
        exact hsearchQ
    refine ⟨?_, ?_, ?_, ?_, ?_⟩
    · rw [pyVarParse, hmatchQ, Option.map_some']
    · -- separator-freeness of the rendering
      by_contra hcc
      rw [Bool.not_eq_false] at hcc
      rcases (containsSub_two_append ',' ' ' ty
          (' ' :: (List.replicate pd '*' ++ nmv))).mp hcc with h1 | h1 | h1
      · rw [hcsty] at h1
        cases h1
      · rw [containsSub] at h1
        rcases orb_iff.mp h1 with h2 | h2
        · simp [List.isPrefixOf] at h2
        · have := containsSub_two_mem ',' ' ' _ h2
          have := htail_ws ' ' this
          simp [pyIsWs] at this
      · exact hcomma h1.1
    · -- whitespace/parenthesis invariant of the rendering
      apply WsParen.build hwty
      · intro u w' v' heq hw' hv'
        cases u with
        | nil =>
          injection heq with he1 he2
          rw [← he2] at hv'
          exact hnoparen hv'
        | cons a u' =>
          injection heq with he1 he2
          have : w' ∈ List.replicate pd '*' ++ nmv := by
            rw [he2]
            simp
          rw [htail_ws w' this] at hw'
          cases hw'
      · intro hmem
        rcases List.mem_cons.mp hmem with h1 | h1
        · exact absurd h1 (by decide)
        · exact absurd h1 hnoparen
    · intro c hc
      rcases List.mem_append.mp hc with h1 | h1
      · exact Or.inl (hmemtyP c h1)
      · rcases List.mem_cons.mp h1 with rfl | h2
        · exact Or.inr (Or.inl rfl)
        · rcases List.mem_append.mp h2 with h3 | h3
          · exact Or.inr (Or.inr (List.eq_of_mem_replicate h3))
          · exact Or.inl (hmemXP c (hmemrestX c (hnmvrest c h3)))
    · intro hcc
      rcases List.append_eq_nil.mp hcc with ⟨_, h2⟩
      cases h2

/-- Computing the declaration regex tail at the split position. -/
theorem fdTry_eq_some (T : List Char) (w : Char) (hw : pyIsWs w = true) (p : Nat)
    (nm A junk : List Char)
    (hnm1 : ∀ c ∈ nm, (c == '(') = false)
    (hnmh : nm.head? ≠ some '*')
    (hA : ∀ c ∈ A, (c == ')') = false) :
    fdTry (T ++ w :: (List.replicate p '*' ++ (nm ++ '(' :: (A ++ ')' :: ';' :: junk))))
      T.length = some (T, p, nm, A) := by
  have hresthd : (nm ++ '(' :: (A ++ ')' :: ';' :: junk)).head? ≠ some '*' := by
    cases nm with
    | nil =>
      intro hcc
      injection hcc with h1
      exact absurd h1 (by decide)
    | cons c t =>
      intro hcc
      injection hcc with h1
      exact hnmh (by rw [List.head?_cons, h1])
  have hdrop := List.drop_left T
    (w :: (List.replicate p '*' ++ (nm ++ '(' :: (A ++ ')' :: ';' :: junk))))
  have htake := List.take_left T
    (w :: (List.replicate p '*' ++ (nm ++ '(' :: (A ++ ')' :: ';' :: junk))))
  simp only [fdTry, hdrop]
  rw [if_pos hw]
  rw [(takeWhile_star_replicate p _ hresthd).1, (takeWhile_star_replicate p _ hresthd).2]
  simp only [breakAtP_append (· == '(') nm (A ++ ')' :: ';' :: junk) '('
    hnm1 (by decide), Option.some_bind]
  simp only [breakAtP_append (· == ')') A (';' :: junk) ')' hA (by decide),
    Option.some_bind]
  simp only [semiCheck, if_true]
  rw [htake, List.length_replicate]

/-- The declaration regex tail fails when the head is not whitespace or no
parenthesis follows. -/
theorem fdTry_none_of_drop (s : List Char) (j : Nat)
    (h : ∀ w r, s.drop j = w :: r → pyIsWs w = true → '(' ∉ r) : fdTry s j = none := by
  rcases hd : s.drop j with _ | ⟨w, r⟩
  · simp only [fdTry, hd]
  · simp only [fdTry, hd]
    by_cases hw : pyIsWs w = true
    · rw [if_pos hw]
      have hnp : '(' ∉ r := h w r hd hw
      have hbp : breakAtP (· == '(') (r.dropWhile (· == '*')) = none := by
        apply breakAtP_none
        intro c hc
        have : c ∈ r := mem_of_mem_dropWhile _ _ _ hc
        cases hcq : c == '('
        · rfl
        · exact absurd (by rw [← show c = '(' from by simpa using hcq]; exact this) hnp
      rw [hbp]
      rfl
    · rw [if_neg hw]

/-- The greedy declaration split search, solved at a known success position
with no success above it. -/
theorem fdSearch_of_succ (s : List Char) (i : Nat)
    (g : List Char × Nat × List Char × List Char) :
    ∀ n, i < n → fdTry s i = some g →
    (∀ j, i < j → j < n → fdTry s j = none) → fdSearch s n = some g := by
  intro n
  induction n with
  | zero => omega
  | succ n ih =>
    intro hin hs hmax
    rw [fdSearch]
    by_cases hi : i = n
    · rw [← hi, hs]
    · rw [hmax n (by omega) (by omega)]
      exact ih (by omega) hs (fun j h1 h2 => hmax j h1 (by omega))

/-- Inversion of the greedy declaration search: a success position with
maximality above it. -/
theorem fdSearch_some_elim (s : List Char) (g : List Char × Nat × List Char × List Char) :
    ∀ n, fdSearch s n = some g →
    ∃ i, i < n ∧ fdTry s i = some g ∧ ∀ j, i < j → j < n → fdTry s j = none := by
  intro n
  induction n with
  | zero => intro h; cases h
  | succ n ih =>
    intro h
    rw [fdSearch] at h
    rcases ht : fdTry s n with _ | g'
    · rw [ht] at h
      obtain ⟨i, hi, hsucc, hmax⟩ := ih h
      refine ⟨i, by omega, hsucc, fun j h1 h2 => ?_⟩
      by_cases hj : j = n
      · rw [hj]; exact ht
      · exact hmax j h1 (by omega)
    · rw [ht] at h
      injection h with h1
      exact ⟨n, by omega, by rw [ht, h1], fun j h1 h2 => by omega⟩

/-- Structure extraction from a successful declaration regex tail. -/
theorem fdTry_some_structure (s : List Char) (i : Nat) (T : List Char) (p : Nat)
    (nm A : List Char) (h : fdTry s i = some (T, p, nm, A)) :
    T = s.take i ∧ i < s.length ∧ ∃ w junk, pyIsWs w = true ∧
      s = s.take i ++ w :: (List.replicate p '*' ++ (nm ++ '(' :: (A ++ ')' :: ';' :: junk))) ∧
      (∀ c ∈ nm, (c == '(') = false) ∧ (∀ c ∈ A, (c == ')') = false) ∧
      nm.head? ≠ some '*' := by
  rcases hd : s.drop i with _ | ⟨w, r⟩
  · simp only [fdTry, hd] at h
    exact Option.noConfusion h
  · simp only [fdTry, hd] at h
    by_cases hw : pyIsWs w = true
    · rw [if_pos hw] at h
      rcases hb1 : breakAtP (· == '(') (r.dropWhile (· == '*')) with _ | ⟨nm0, r2⟩
      · rw [hb1] at h
        exact Option.noConfusion h
      · simp only [hb1, Option.some_bind] at h
        rcases hb2 : breakAtP (· == ')') r2 with _ | ⟨A0, r3⟩
        · rw [hb2] at h
          exact Option.noConfusion h
        · simp only [hb2, Option.some_bind] at h
          rcases r3 with _ | ⟨c3, junk⟩
          · simp only [semiCheck] at h
            exact Option.noConfusion h
          · simp only [semiCheck] at h
            by_cases hc3 : c3 = ';'
            · rw [if_pos hc3] at h
              subst hc3
              injection h with h1
              have hT : T = s.take i := congrArg (Prod.fst) h1.symm
              have hp : p = (r.takeWhile (· == '*')).length :=
                congrArg (Prod.fst ∘ Prod.snd) h1.symm
              have hnm : nm = nm0 := congrArg (Prod.fst ∘ Prod.snd ∘ Prod.snd) h1.symm
              have hA0 : A = A0 := congrArg (Prod.snd ∘ Prod.snd ∘ Prod.snd) h1.symm
              subst hnm
              subst hA0
              have hlen : i < s.length := by
                by_contra hcc
                rw [List.drop_eq_nil_of_le (by omega)] at hd
                cases hd
              obtain ⟨hnm1, cpar, hcpar, hr1⟩ := breakAtP_some _ _ _ _ hb1
              obtain ⟨hA1, cket, hcket, hr2⟩ := breakAtP_some _ _ _ _ hb2
              have hcpar' : cpar = '(' := by simpa using hcpar
              have hcket' : cket = ')' := by simpa using hcket
              subst hcpar'
              subst hcket'
              refine ⟨hT, hlen, w, junk, hw, ?_, hnm1, hA1, ?_⟩
              · conv_lhs => rw [← List.take_append_drop i s]
                rw [hd]
                have hr : r = List.replicate p '*' ++ r.dropWhile (· == '*') := by
                  conv_lhs => rw [← List.takeWhile_append_dropWhile (p := (· == '*')) (l := r)]
                  rw [takeWhile_star_eq_replicate, ← hp]
                rw [hr, hr1, hr2]
              · rcases hnm0 : nm with _ | ⟨c0, t0⟩
                · intro hcc
                  cases hcc
                · have hr1h : r.dropWhile (· == '*') = c0 :: (t0 ++ '(' :: r2) := by
                    rw [hr1, hnm0]
                    rfl
                  have := dropWhile_head_false _ _ _ _ hr1h
                  intro hcc
                  injection hcc with hcc1
                  rw [hcc1] at this
                  cases this
            · rw [if_neg hc3] at h
              exact Option.noConfusion h
    · rw [if_neg hw] at h
      exact Option.noConfusion h

/-- Rebuilding a `", "`-join from pieces that satisfy the invariant and only
use characters of the original pieces (plus space and star) preserves the
whitespace/parenthesis invariant of the join. -/
theorem WsParen_joinSep_rebuild (ps qs : List (List Char))
    (h : List.Forall₂ (fun P Q => WsParen Q ∧ (∀ c ∈ Q, c ∈ P ∨ c = ' ' ∨ c = '*')) ps qs)
    (hw : WsParen (joinSep [',', ' '] ps)) :
    WsParen (joinSep [',', ' '] qs) := by
  rcases h with _ | ⟨hPQ, h'⟩
  · exact WsParen_nil
  · rename_i P Q ps' qs'
    rcases h' with _ | ⟨hPQ2, h''⟩
    · exact hPQ.1
    · rename_i P₂ Q₂ ps'' qs''
      have hnoJp : '(' ∉ joinSep [',', ' '] (P₂ :: ps'') := by
        exact hw (P ++ [',']) ' ' (joinSep [',', ' '] (P₂ :: ps''))
          (by rw [joinSep]; simp) (by decide)
      have hnoJq : '(' ∉ joinSep [',', ' '] (Q₂ :: qs'') := by
        intro hcc
        rcases mem_joinSep _ _ _ hcc with hs | ⟨x, hx, hcx⟩
        · simp at hs
        · obtain ⟨P', hP', hR⟩ := forall₂_mem_right
            (show List.Forall₂ (fun P Q => WsParen Q ∧ ∀ c ∈ Q, c ∈ P ∨ c = ' ' ∨ c = '*')
              (P₂ :: ps'') (Q₂ :: qs'') from List.Forall₂.cons hPQ2 h'') hx
          rcases hR.2 '(' hcx with h1 | h1 | h1
          · exact hnoJp (mem_joinSep_of_piece _ _ _ _ hP' h1)
          · exact absurd h1 (by decide)
          · exact absurd h1 (by decide)
      show WsParen (joinSep [',', ' '] (Q :: Q₂ :: qs''))
      rw [joinSep, List.append_assoc]
      apply WsParen.build hPQ.1
      · apply WsParen_of_noParen
        intro hcc
        rcases List.mem_append.mp hcc with h1 | h1
        · simp at h1
        · exact hnoJq h1
      · intro hmem
        exfalso
        rcases List.mem_append.mp hmem with h1 | h1
        · simp at h1
        · exact hnoJq h1

/-- After the rendered split point, the declaration regex tail always fails
when the remainder satisfies the invariant. -/
theorem fdTry_none_of_wsparen (T M : List Char) (hM : WsParen M) (j : Nat)
    (hj : T.length < j) : fdTry (T ++ ' ' :: M) j = none := by
  apply fdTry_none_of_drop
  intro w' r' hd hw'
  have hj2 : j = (j - T.length - 1) + (T ++ [' ']).length := by
    simp only [List.length_append, List.length_cons, List.length_nil]
    omega
  rw [hj2, show T ++ ' ' :: M = (T ++ [' ']) ++ M from by simp, drop_append_len] at hd
  have hMeq : M = M.take (j - T.length - 1) ++ w' :: r' := by
    conv_lhs => rw [← List.take_append_drop (j - T.length - 1) M]
    rw [hd]
  exact hM _ w' r' hMeq hw'

/-- The whole-line declaration match of a rendered declaration is decided at
the rendered split point. -/
theorem funcDeclMatch_render (T M : List Char) (g : List Char × Nat × List Char × List Char)
    (hM : WsParen M) (hfd : fdTry (T ++ ' ' :: M) T.length = some g) :
    funcDeclMatch (T ++ ' ' :: M) = some g := by
  rw [funcDeclMatch]
  apply fdSearch_of_succ _ T.length _ _ _ hfd
  · intro j hj1 _
    exact fdTry_none_of_wsparen T M hM j hj1
  · simp

/-- Strengthen a pointwise relation using membership of both sides. -/
theorem forall₂_strengthen {R S : List Char → Variable → Prop} :
    ∀ (ps : List (List Char)) (vs : List Variable), List.Forall₂ R ps vs →
    (∀ P ∈ ps, ∀ v ∈ vs, R P v → S P v) → List.Forall₂ S ps vs := by
  intro ps vs h
  induction h with
  | nil => intro _; exact List.Forall₂.nil
  | cons hab hrest ih =>
    intro hside
    exact List.Forall₂.cons
      (hside _ (by simp) _ (by simp) hab)
      (ih (fun P hP v hv hR => hside P (List.mem_cons_of_mem _ hP)
        v (List.mem_cons_of_mem _ hv) hR))

/-- Parsing the rendered argument list piecewise succeeds with the original
variables. -/
theorem mapOptionVar_map_self (das : Int) : ∀ (vs : List Variable),
    (∀ v ∈ vs, pyVarParse (varStr v) das = some v) →
    mapOptionVar (fun pc => pyVarParse pc das) (vs.map varStr) = some vs := by
  intro vs
  induction vs with
  | nil => intro _; rfl
  | cons v r ih =>
    intro h
    rw [List.map_cons, mapOptionVar, h v (by simp),
      ih (fun x hx => h x (List.mem_cons_of_mem _ hx))]

/-- Uniform shape of `Function.declaration`: return type, a space, the star
run, the name, and the parenthesised joined arguments with `);`. -/
theorem declaration_shape (nm : List Char) (avs : List Variable) (T : List Char) (p : Nat)
    (a : Int) (ov : Option (List Char)) (rn : List Char) :
    declaration ⟨nm, avs, ⟨T, rn, p, a, ov⟩⟩ =
      T ++ ' ' :: (List.replicate p '*' ++ (nm ++ '(' ::
        (joinSep [',', ' '] (avs.map varStr) ++ ')' :: ';' :: []))) := by
  have hcs : ", ".toList = [',', ' '] := rfl
  have hsc : ");".toList = [')', ';'] := rfl
  by_cases hp : p = 0
  · simp [declaration, typeStr, hp, hcs, hsc]
  · simp [declaration, typeStr, hp, hcs, hsc]

/-- C5 (amended): `Signature.parse` composed with the declaration renderer
is the identity on the parser's accepted set, provided no parsed argument
type is `const `-qualified (the regex strips one `const ` per piece, so a
re-parse strips again), no parsed argument type ends in a comma (which
would collide with the `", "` joiner), and no parsed argument name holds
whitespace (the outer regex is `DOTALL` but `Variable.parse`'s is not, so
an argument piece with a newline splits there and leaves whitespace in the
name, which re-parses differently).  Under these three conditions the
re-parse of the rendering returns exactly the first parse. -/
theorem C5_amended (s : List Char) (das : Int) (sig : Signature)
    (h : pySigParse s das = some sig)
    (hargs : ∀ v ∈ sig.args,
      (("const ".toList).isPrefixOf v.type) = false ∧ v.type.getLast? ≠ some ',' ∧
      (∀ c ∈ v.name, pyIsWs c = false)) :
    pySigParse (declaration sig) das = some sig := by
  rw [pySigParse] at h
  rcases hm : funcDeclMatch s with _ | ⟨T, p, nm, args⟩
  · rw [hm] at h
    exact Option.noConfusion h
  · simp only [hm] at h
    rw [funcDeclMatch] at hm
    obtain ⟨i, hin, hsucc, hmax⟩ := fdSearch_some_elim s _ s.length hm
    obtain ⟨hT, hilen, w, junk, hw, hs_eq, hnm1, hA1, hnmh⟩ :=
      fdTry_some_structure s i T p nm args hsucc
    rw [← hT] at hs_eq
    have hTi : T.length = i := by
      rw [hT, List.length_take]
      omega
    -- F1: the name group is whitespace-free, by maximality of the greedy split
    have hF1 : ∀ c ∈ nm, pyIsWs c = false := by
      intro c hc
      by_contra hcc
      rw [Bool.not_eq_false] at hcc
      obtain ⟨u, v, huv⟩ := List.append_of_mem hc
      have hsj : s = (T ++ w :: (List.replicate p '*' ++ u)) ++
          c :: (v ++ '(' :: (args ++ ')' :: ';' :: junk)) := by
        conv_lhs => rw [hs_eq]
        rw [huv]
        simp
      have hdropj : s.drop (T ++ w :: (List.replicate p '*' ++ u)).length =
          c :: (v ++ '(' :: (args ++ ')' :: ';' :: junk)) := by
        conv_lhs => rw [hsj]
        exact List.drop_left _ _
      have hjlt : (T ++ w :: (List.replicate p '*' ++ u)).length < s.length := by
        conv_rhs => rw [hsj]
        simp only [List.length_append, List.length_cons]
        omega
      have hjgt : i < (T ++ w :: (List.replicate p '*' ++ u)).length := by
        simp only [List.length_append, List.length_cons, List.length_replicate, hTi]
        omega
      have hnone := hmax _ hjgt hjlt
      have hdw : (v ++ '(' :: (args ++ ')' :: ';' :: junk)).dropWhile (· == '*') =
          v.dropWhile (· == '*') ++ '(' :: (args ++ ')' :: ';' :: junk) :=
        dropWhile_append_stopped _ _ _ _ (by decide)
      have hb1 : breakAtP (· == '(')
          ((v ++ '(' :: (args ++ ')' :: ';' :: junk)).dropWhile (· == '*')) =
          some (v.dropWhile (· == '*'), args ++ ')' :: ';' :: junk) := by
        rw [hdw]
        apply breakAtP_append
        · intro c' hc'
          exact hnm1 c' (by
            rw [huv]
            exact List.mem_append.mpr (Or.inr (List.mem_cons_of_mem _
              (mem_of_mem_dropWhile _ _ _ hc'))))
        · decide
      have hb2 : breakAtP (· == ')') (args ++ ')' :: ';' :: junk) =
          some (args, ';' :: junk) :=
        breakAtP_append _ _ _ _ hA1 (by decide)
      have hcomp : fdTry s (T ++ w :: (List.replicate p '*' ++ u)).length ≠ none := by
        simp only [fdTry, hdropj]
        rw [if_pos hcc]
        simp only [hb1, Option.some_bind, hb2, Option.some_bind, semiCheck, if_true]
        intro hx
        exact Option.noConfusion hx
      exact hcomp hnone
    -- F2: the argument group carries the whitespace/parenthesis invariant
    have hF2 : WsParen args := by
      intro u c v' heq hwc hpar
      have hsj : s = (T ++ w :: (List.replicate p '*' ++ (nm ++ '(' :: u))) ++
          c :: (v' ++ ')' :: ';' :: junk) := by
        conv_lhs => rw [hs_eq]
        rw [heq]
        simp
      have hdropj : s.drop
          (T ++ w :: (List.replicate p '*' ++ (nm ++ '(' :: u))).length =
          c :: (v' ++ ')' :: ';' :: junk) := by
        conv_lhs => rw [hsj]
        exact List.drop_left _ _
      have hjlt : (T ++ w :: (List.replicate p '*' ++ (nm ++ '(' :: u))).length <
          s.length := by
        conv_rhs => rw [hsj]
        simp only [List.length_append, List.length_cons]
        omega
      have hjgt : i <
          (T ++ w :: (List.replicate p '*' ++ (nm ++ '(' :: u))).length := by
        simp only [List.length_append, List.length_cons, List.length_replicate, hTi]
        omega
      have hnone := hmax _ hjgt hjlt
      have hdw : (v' ++ ')' :: ';' :: junk).dropWhile (· == '*') =
          v'.dropWhile (· == '*') ++ ')' :: ';' :: junk :=
        dropWhile_append_stopped _ _ _ _ (by decide)
      have hparW : '(' ∈ v'.dropWhile (· == '*') :=
        mem_dropWhile_of_mem _ _ _ hpar (by decide)
      have hb1s := breakAtP_isSome_of_mem (· == '(')
        ((v' ++ ')' :: ';' :: junk).dropWhile (· == '*')) '('
        (by rw [hdw]; exact List.mem_append.mpr (Or.inl hparW)) (by decide)
      rcases hb1 : breakAtP (· == '(')
          ((v' ++ ')' :: ';' :: junk).dropWhile (· == '*')) with _ | ⟨nm0, r2⟩
      · rw [hb1] at hb1s
        cases hb1s
      · obtain ⟨hnm0free, cpar, hcpar, hreq⟩ := breakAtP_some _ _ _ _ hb1
        have hcpar' : cpar = '(' := by simpa using hcpar
        subst hcpar'
        rw [hdw] at hreq
        obtain ⟨u2, hW, hr2⟩ := append_cons_surgery (v'.dropWhile (· == '*'))
          (')' :: ';' :: junk) nm0 r2 '(' hparW
          (fun a ha => by
            have haf := hnm0free a ha
            intro hae
            rw [hae] at haf
            simp at haf) hreq
        have hu2mem : ∀ a ∈ u2, (a == ')') = false := by
          intro a ha
          apply hA1
          rw [heq]
          have haW : a ∈ v'.dropWhile (· == '*') := by
            rw [hW]
            exact List.mem_append.mpr (Or.inr (List.mem_cons_of_mem _ ha))
          exact List.mem_append.mpr (Or.inr (List.mem_cons_of_mem _
            (mem_of_mem_dropWhile _ _ _ haW)))
        have hb2 : breakAtP (· == ')') r2 = some (u2, ';' :: junk) := by
          rw [hr2]
          exact breakAtP_append _ _ _ _ hu2mem (by decide)
        have hcomp : fdTry s
            (T ++ w :: (List.replicate p '*' ++ (nm ++ '(' :: u))).length ≠
            none := by
          simp only [fdTry, hdropj]
          rw [if_pos hwc]
          simp only [hb1, Option.some_bind, hb2, Option.some_bind, semiCheck, if_true]
          intro hx
          exact Option.noConfusion hx
        exact hcomp hnone
    by_cases hae : args = []
    · subst hae
      rw [if_pos rfl] at h
      simp only [mapOptionVar] at h
      injection h with hsig
      subst hsig
      rw [declaration_shape]
      simp only [List.map_nil]
      rw [show joinSep [',', ' '] ([] : List (List Char)) = [] from rfl]
      have hM : WsParen (List.replicate p '*' ++ (nm ++ '(' :: ([] ++ ')' :: ';' :: []))) := by
        apply WsParen_of_noWs
        intro c hc hcc
        rcases List.mem_append.mp hc with h1 | h1
        · rw [List.eq_of_mem_replicate h1] at hcc
          cases hcc
        · rcases List.mem_append.mp h1 with h2 | h2
          · rw [hF1 c h2] at hcc
            cases hcc
          · rcases List.mem_cons.mp h2 with rfl | h3
            · cases hcc
            · rcases List.mem_cons.mp h3 with rfl | h4
              · cases hcc
              · rcases List.mem_cons.mp h4 with rfl | h5
                · cases hcc
                · cases h5
      have hfd := fdTry_eq_some T ' ' (by decide) p nm [] [] hnm1 hnmh
        (fun c hc => absurd hc (List.not_mem_nil c))
      have hfdm2 := funcDeclMatch_render T _ _ hM hfd
      rw [pySigParse, hfdm2]
      rfl
    · rw [if_neg hae] at h
      rcases hmap : mapOptionVar (fun pc => pyVarParse pc das)
          (splitOnSep (", ".toList) args) with _ | avs
      · rw [hmap] at h
        exact Option.noConfusion h
      · simp only [hmap] at h
        injection h with hsig
        subst hsig
        have hpieces_eq : splitOnSep (", ".toList) args =
            splitOnSepAux ',' [' '] args.length args := rfl
        have hjoin : joinSep [',', ' '] (splitOnSep (", ".toList) args) = args := by
          rw [hpieces_eq]
          exact joinSep_splitOnSepAux ',' [' '] args.length args le_rfl
        have hnosub : ∀ P ∈ splitOnSep (", ".toList) args,
            containsSub [',', ' '] P = false := by
          rw [hpieces_eq]
          exact splitOnSepAux_no_sub ',' [' '] args.length args le_rfl
        have hwspiece : ∀ P ∈ splitOnSep (", ".toList) args, WsParen P := by
          intro P hP
          exact WsParen_of_infix hF2 (hjoin ▸ piece_infix_joinSep [',', ' '] _ P hP)
        have hf2m := mapOptionVar_some_forall₂ _ _ _ hmap
        have hrt : List.Forall₂ (fun P v => pyVarParse (varStr v) das = some v ∧
            containsSub [',', ' '] (varStr v) = false ∧ WsParen (varStr v) ∧
            (∀ c ∈ varStr v, c ∈ P ∨ c = ' ' ∨ c = '*') ∧ varStr v ≠ [])
            (splitOnSep (", ".toList) args) avs := by
          apply forall₂_strengthen _ _ hf2m
          intro P hP v hv hpv
          exact piece_roundtrip P das v hpv (hwspiece P hP) (hnosub P hP)
            (hargs v hv).1 (hargs v hv).2.1 (hargs v hv).2.2
        have havs_ne : avs ≠ [] := by
          intro hcc
          have hlen := List.Forall₂.length_eq hf2m
          rw [hcc] at hlen
          exact splitOnSep_ne_nil _ _ (List.length_eq_zero.mp hlen)
        have hargsne' : joinSep [',', ' '] (avs.map varStr) ≠ [] := by
          rcases havs2 : avs with _ | ⟨v0, avs'⟩
          · exact absurd havs2 havs_ne
          · apply joinSep_ne_nil
            obtain ⟨P, hP, props⟩ := forall₂_mem_right hrt
              (by rw [havs2]; exact List.mem_cons_self _ _)
            exact props.2.2.2.2
        have hQfacts : ∀ Q ∈ avs.map varStr, containsSub [',', ' '] Q = false := by
          intro Q hQ
          obtain ⟨v, hv, rfl⟩ := List.mem_map.mp hQ
          obtain ⟨P, hP, props⟩ := forall₂_mem_right hrt hv
          exact props.2.1
        have hmapne : avs.map varStr ≠ [] := by
          intro hcc
          exact havs_ne (List.map_eq_nil_iff.mp hcc)
        have hsplitQ : splitOnSep [',', ' '] (joinSep [',', ' '] (avs.map varStr)) =
            avs.map varStr :=
          splitOnSep_joinSep_cs _ hmapne hQfacts
        have hrtQ : ∀ v ∈ avs, pyVarParse (varStr v) das = some v := by
          intro v hv
          obtain ⟨P, hP, props⟩ := forall₂_mem_right hrt hv
          exact props.1
        have hmapQ : mapOptionVar (fun pc => pyVarParse pc das) (avs.map varStr) =
            some avs := mapOptionVar_map_self das avs hrtQ
        have hrt2 : List.Forall₂
            (fun P Q => WsParen Q ∧ (∀ c ∈ Q, c ∈ P ∨ c = ' ' ∨ c = '*'))
            (splitOnSep (", ".toList) args) (avs.map varStr) := by
          rw [List.forall₂_map_right_iff]
          exact List.Forall₂.imp (fun _ _ hPv => ⟨hPv.2.2.1, hPv.2.2.2.1⟩) hrt

        have hwargs' : WsParen (joinSep [',', ' '] (avs.map varStr)) := by
          apply WsParen_joinSep_rebuild _ _ hrt2
          rw [hjoin]
          exact hF2
        have hA' : ∀ c ∈ joinSep [',', ' '] (avs.map varStr), (c == ')') = false := by
          intro c hc
          rcases mem_joinSep _ _ _ hc with hs | ⟨Q, hQ, hcQ⟩
          · rcases List.mem_cons.mp hs with rfl | hs2
            · decide
            · rcases List.mem_cons.mp hs2 with rfl | hs3
              · decide
              · cases hs3
          · obtain ⟨v, hv, rfl⟩ := List.mem_map.mp hQ
            obtain ⟨P, hP, props⟩ := forall₂_mem_right hrt hv
            rcases props.2.2.2.1 c hcQ with h1 | h1 | h1
            · apply hA1
              rw [← hjoin]
              exact mem_joinSep_of_piece _ _ _ _ hP h1
            · rw [h1]; decide
            · rw [h1]; decide
        have hxws : ∀ c ∈ List.replicate p '*' ++ nm, ¬ pyIsWs c := by
          intro c hc hcc
          rcases List.mem_append.mp hc with h1 | h1
          · rw [List.eq_of_mem_replicate h1] at hcc
            cases hcc
          · rw [hF1 c h1] at hcc
            cases hcc
        have hM : WsParen (List.replicate p '*' ++ (nm ++ '(' ::
            (joinSep [',', ' '] (avs.map varStr) ++ ')' :: ';' :: []))) := by
          rw [show List.replicate p '*' ++ (nm ++ '(' ::
              (joinSep [',', ' '] (avs.map varStr) ++ ')' :: ';' :: [])) =
            (List.replicate p '*' ++ nm) ++ ('(' ::
              (joinSep [',', ' '] (avs.map varStr) ++ ')' :: ';' :: [])) from by simp]
          apply WsParen.build (WsParen_of_noWs _ hxws)
          · rw [show ('(' :: (joinSep [',', ' '] (avs.map varStr) ++ ')' :: ';' :: [])) =
              ['('] ++ (joinSep [',', ' '] (avs.map varStr) ++ ')' :: ';' :: []) from rfl]
            apply WsParen.build (WsParen_of_noWs ['('] (by intro c hc; rw [List.mem_singleton] at hc; rw [hc]; decide))
            · apply WsParen.build hwargs'
              · apply WsParen_of_noWs
                intro c hc
                rcases List.mem_cons.mp hc with rfl | h2
                · decide
                · rcases List.mem_cons.mp h2 with rfl | h3
                  · decide
                  · cases h3
              · intro hmem
                exfalso
                rcases List.mem_cons.mp hmem with h1 | h1
                · exact absurd h1 (by decide)
                · rcases List.mem_cons.mp h1 with h2 | h2
                  · exact absurd h2 (by decide)
                  · cases h2
            · intro _ c hc
              rw [List.mem_singleton] at hc
              rw [hc]
              decide
          · intro _ c hc
            exact hxws c hc
        have hfd := fdTry_eq_some T ' ' (by decide) p nm
          (joinSep [',', ' '] (avs.map varStr)) [] hnm1 hnmh hA'
        have hfdm2 := funcDeclMatch_render T _ _ hM hfd
        have hsplitQ' : splitOnSep (", ".toList) (joinSep [',', ' '] (avs.map varStr)) =
            avs.map varStr := hsplitQ
        rw [declaration_shape]
        rw [pySigParse]
        simp only [hfdm2]
        rw [if_neg hargsne']
        simp only [hsplitQ', hmapQ]

/-- C5 (counterexample to the claim as stated): the parser accepts
`void f(const const a x);`, extracting the argument type `const a`; the
rendered declaration `void f(const a x);` re-parses with argument type `a`,
so the round trip is not the identity on the accepted set. -/
theorem C5_counterexample :
    ((pySigParse ("void f(const const a x);".toList) 100).bind fun sg =>
      (pySigParse (declaration sg) 100).map fun sg2 => sigEq sg2 sg) = some false := by
  decide

/-- Witness for C5: the accepted declaration `char *strcpy(char *dest,
char *src);` satisfies both side conditions and round-trips exactly. -/
theorem C5_witness :
    pySigParse (declaration ⟨"strcpy".toList,
      [⟨"char".toList, "dest".toList, 1, 7, none⟩,
       ⟨"char".toList, "src".toList, 1, 7, none⟩],
      ⟨"char".toList, "unnamed".toList, 1, -1, none⟩⟩) 7 =
    some ⟨"strcpy".toList,
      [⟨"char".toList, "dest".toList, 1, 7, none⟩,
       ⟨"char".toList, "src".toList, 1, 7, none⟩],
      ⟨"char".toList, "unnamed".toList, 1, -1, none⟩⟩ :=
  C5_amended ("char *strcpy(char *dest, char *src);".toList) 7 _ (by decide) (by decide)

/-- Witness for C10 at a source holding only an external declaration: no
symbol is detected and the rename fails. -/
theorem C10_witness :
    ("declare void @f()".toList ≠ []) ∧
    (detect_names (splitOnSep ['\n'] ("declare void @f()".toList))
        (renameSub ("musl".toList)) = []) ∧
    renameEmb ("musl".toList) ("declare void @f()".toList) = none :=
  ⟨by decide, by decide,
   C10_empty_mapping ("musl".toList) ("declare void @f()".toList) (by decide) (by decide)⟩

end Sputnik
